import Mathlib

/-!
A shallow embedding of the `qtos` query-string decoder (src/qtos.go) and a
verification of the frozen specification claims against it.

The embedding mirrors the Go source function by function:

* `fieldMatch`, `indexMatch`, `mapKeyMatch` embed the three anchored regular
  expressions `fieldRegexp`, `indexRegexp`, `mapKeyRegexp`;
* `getValue` embeds `getValue` (the scalar converter);
* `getStructField` embeds `getStructField` (tag-or-name field resolution,
  later duplicate wins, as in the Go map built by the loop);
* `mergeValues` embeds `mergeValues`;
* `bind`/`bindCore` embed the recursive `bind` (`bindCore` is the part of the
  body after the leading-dot handling, which in Go is straight-line code in
  the same call, not a recursive call);
* `unmarshal` embeds `Unmarshal`.

Modelling conventions:
* Go reflection values become the inductive `Value`; the static Go type
  becomes the inductive `Shape`.  Struct tags are pre-extracted: a struct
  field is a `(goName, queryTag, shape)` triple, where `queryTag` is the
  value of the `query` struct tag (`""` when absent), matching the default
  `StructTag = "query"` configuration.
* Machine integers are modelled as `Int` with the explicit `int64` range
  check of `strconv.ParseInt(s, 10, 64)`; `reflect.Value.SetInt` overflow
  panics for `int32` fields are outside every claim and are not modelled
  (the shape `int` covers the Go kinds `Int`, `Int32`, `Int64`).
* Floating-point fields (`float32`/`float64`) are not modelled: no claim
  concerns them, and their semantics would require a model of
  `strconv.ParseFloat`.  The `default` arm of `getValue` is kept, so every
  shape of this embedding that Go would reject is rejected here too.
* `url.Values` is a Go map, iterated in unspecified order by `Unmarshal`;
  the embedding takes an explicit `List (String × List String)` and
  processes it in list order, so that order sensitivity can be stated.
* Go maps become association lists with `SetMapIndex`-style replace-or-append
  update; key equality is Go's map-key equality restricted to the scalar
  values that `getValue` can produce (the only keys this library builds).
* The unguarded `value[0]` in `bind`'s leaf case would be a Go runtime panic
  ("index out of range") when the value list is empty; it is modelled as the
  distinguished outcome `Err.panicked`, which is not a returned Go error.
* `reflect` panics that would require `val` not to have type `typ` (never
  reachable from `Unmarshal`, where the reflection value always has the
  reflection type) are modelled as the distinguished outcome
  `Err.reflectMismatch`.
* Growing a slice via `reflect.MakeSlice`/`reflect.Copy` or via `SetLen`
  into spare capacity both expose zero-valued slots (append-created spare
  capacity is freshly zeroed memory that is never written), so both paths
  are modelled as padding with zero values.
* `strconv.Atoi` inside the index branch ignores its error (`index, _`); on
  a digit string it can only fail with `ErrRange`, returning the clamped
  maximum.  The model uses the exact natural number; all claims use small
  indices where both agree.
-/

set_option autoImplicit false

namespace Qtos

/-- Reflection kind of a value, as compared by `mergeValues` via `Kind()`. -/
inductive VKind where
  | str
  | int
  | bool
  | iface
  | struct
  | slice
  | map
  deriving DecidableEq, Repr

/-- Error outcomes of the decoder.  Constructors correspond one-to-one to the
`fmt.Errorf`/`strconv` error sites of the source, plus the two distinguished
non-error outcomes `panicked` (the unguarded `value[0]` runtime panic) and
`reflectMismatch` (reflect panics unreachable from `Unmarshal`). -/
inductive Err where
  /-- Go: `"v must be a pointer"` in `Unmarshal`. -/
  | mustBePointer
  /-- Go: `"expected only one value for %s got %v"`. -/
  | multipleValues (base : String) (value : List String)
  /-- Go: `"expected a struct for %s got %v"`. -/
  | expectedStruct (base : String)
  /-- Go: `"expected a slice for %s got %v"`. -/
  | expectedSlice (base : String)
  /-- Go: `"[] can only be at the end of the key"`. -/
  | appendNotAtEnd
  /-- Go: `"expected a map for %s got %v"`. -/
  | expectedMap (base : String)
  /-- Go: `"unknown format %s in %s"`. -/
  | unknownFormat (name : String) (full : String)
  /-- Go: `"can not merge %v and %v"` in `mergeValues`. -/
  | cannotMerge (a b : VKind)
  /-- Go: `strconv.ErrSyntax` from `strconv.ParseInt(s, 10, 64)`. -/
  | intSyntax (s : String)
  /-- Go: `strconv.ErrRange` from `strconv.ParseInt(s, 10, 64)`. -/
  | intRange (s : String)
  /-- Go: `strconv.ErrSyntax` from `strconv.ParseBool`. -/
  | boolSyntax (s : String)
  /-- Go: `"unsupported type %v"` in `getValue`. -/
  | unsupportedType
  /-- Models the Go runtime panic `index out of range [0] with length 0`
  raised by the unguarded `value[0]` in the leaf case of `bind`.
  This is not a returned Go error. -/
  | panicked
  /-- Models a `reflect` panic on a value whose runtime structure does not
  match the claimed type; unreachable from `Unmarshal`, where the
  reflection value always has the reflection type. -/
  | reflectMismatch
  deriving DecidableEq, Repr

/-- Reflection values.  `vSliceNil`/`vSlice` distinguish a nil slice from a
created one, as `mergeValues` does via `IsNil`; likewise for maps.
`vIfaceNil`/`vIface` are an `interface{}` holding nothing resp. a string
(the only dynamic type this library ever stores in an interface). -/
inductive Value where
  | vStr (s : String)
  | vInt (i : Int)
  | vBool (b : Bool)
  | vIfaceNil
  | vIface (s : String)
  | vStruct (fields : List Value)
  | vSliceNil
  | vSlice (elems : List Value)
  | vMapNil
  | vMap (entries : List (Value × Value))

/-- Kind of a value (Go `reflect.Value.Kind()`). -/
def Value.vkind : Value → VKind
  | .vStr _ => .str
  | .vInt _ => .int
  | .vBool _ => .bool
  | .vIfaceNil => .iface
  | .vIface _ => .iface
  | .vStruct _ => .struct
  | .vSliceNil => .slice
  | .vSlice _ => .slice
  | .vMapNil => .map
  | .vMap _ => .map

/-- Static type shape of a destination (Go `reflect.Type`).  A struct field
is `(goName, queryTag, shape)`: the Go field name, the pre-extracted value
of its `query` struct tag (`""` when the tag is absent) and the field's
type.  Scalar kinds cover exactly the kinds `getValue` supports (floats are
not modelled, see the file comment). -/
inductive Shape where
  | str
  | int
  | bool
  | iface
  | sstruct (fields : List (String × String × Shape))
  | slice (elem : Shape)
  | map (key : Shape) (elem : Shape)

/-- A struct field descriptor: Go name, `query` tag value, field type. -/
abbrev StructField := String × String × Shape

/-- Go field name of a struct field. -/
def sfName (f : StructField) : String := f.1

/-- Pre-extracted `query` struct-tag value of a struct field. -/
def sfTag (f : StructField) : String := f.2.1

/-- Type shape of a struct field. -/
def sfShape (f : StructField) : Shape := f.2.2

/-- Kind of a shape (Go `reflect.Type.Kind()`). -/
def shapeKind : Shape → VKind
  | .str => .str
  | .int => .int
  | .bool => .bool
  | .iface => .iface
  | .sstruct _ => .struct
  | .slice _ => .slice
  | .map _ _ => .map

/-- Character class of `fieldRegexp`'s first character: `[a-zA-Z_]`.
Written with explicit ranges because `Char.isAlpha` would admit all Unicode
letters while the Go regexp is ASCII-only. -/
def isFieldStart (c : Char) : Bool :=
  ('a' ≤ c && c ≤ 'z') || ('A' ≤ c && c ≤ 'Z') || c == '_'

/-- Character class of `fieldRegexp`'s later characters: `[a-zA-Z0-9_]`. -/
def isFieldChar (c : Char) : Bool :=
  isFieldStart c || ('0' ≤ c && c ≤ '9')

/-- Go `fieldRegexp.FindString(name)` for `^[a-zA-Z_][a-zA-Z0-9_]*`:
the longest prefix consisting of a field-start character followed by field
characters, or `[]` when the first character does not match. -/
def fieldMatch : List Char → List Char
  | [] => []
  | c :: rest => if isFieldStart c then c :: rest.takeWhile isFieldChar else []

/-- Anchored match of a bracket pair `[`, one or more characters satisfying
`p`, `]` at the start of `s`; returns the matched prefix or `[]`.  Both
`indexRegexp` and `mapKeyRegexp` have this form, and for both the enclosed
character class can never match `]`, so the regexp's greedy match is the
maximal `p`-run followed by a literal `]`. -/
def bracketMatch (p : Char → Bool) (s : List Char) : List Char :=
  match s with
  | [] => []
  | c :: rest =>
    if c = '[' then
      match rest.drop (rest.takeWhile p).length with
      | [] => []
      | d :: _ =>
        if d = ']' then
          if (rest.takeWhile p).isEmpty then []
          else '[' :: (rest.takeWhile p ++ [']'])
        else []
    else []

/-- Go `indexRegexp.FindString(name)` for `^\[[0-9]+\]`: a bracket pair
enclosing one or more digits at the start of the string, or `[]` when there
is no match. -/
def indexMatch (s : List Char) : List Char :=
  bracketMatch Char.isDigit s

/-- Go `mapKeyRegexp.FindString(name)` for `^\[[^\]]+\]`: a bracket pair
enclosing one or more non-`]` characters at the start of the string, or `[]`
when there is no match. -/
def mapKeyMatch (s : List Char) : List Char :=
  bracketMatch (fun c => c != ']') s

/-- Numeric value of a digit string (used for `strconv.Atoi` on the digits
matched by `indexRegexp`; see the file comment about the ignored
`ErrRange`). -/
def digitsToNat (ds : List Char) : Nat :=
  ds.foldl (fun a c => a * 10 + (c.toNat - '0'.toNat)) 0

/-- Go `strconv.ParseInt(s, 10, 64)`: optional sign, one or more ASCII
digits, `int64` range check. -/
def parseInt64 (s : String) : Except Err Int :=
  match s.data with
  | [] => .error (.intSyntax s)
  | c :: rest =>
    let neg : Bool := c == '-'
    let ds : List Char := if c == '-' || c == '+' then rest else c :: rest
    if ds.isEmpty || !(ds.all Char.isDigit) then .error (.intSyntax s)
    else
      let n := digitsToNat ds
      if neg then
        if n ≤ 2 ^ 63 then .ok (-(n : Int)) else .error (.intRange s)
      else
        if n ≤ 2 ^ 63 - 1 then .ok (n : Int) else .error (.intRange s)

/-- Go `strconv.ParseBool`: accepts exactly the listed textual forms. -/
def parseBool (s : String) : Except Err Bool :=
  if s = "1" || s = "t" || s = "T" || s = "TRUE" || s = "true" || s = "True" then
    .ok true
  else if s = "0" || s = "f" || s = "F" || s = "FALSE" || s = "false" || s = "False" then
    .ok false
  else .error (.boolSyntax s)

/-- Go `getValue(typ, value)`: convert one raw string to a value of the
scalar shape `typ`.  The `iface` case stores the string in the interface,
matching the effect of `val.Set(reflect.ValueOf(value))` on an
`interface{}` destination. -/
def getValue (typ : Shape) (value : String) : Except Err Value :=
  match typ with
  | .str => .ok (.vStr value)
  | .int =>
    match parseInt64 value with
    | .error e => .error e
    | .ok i => .ok (.vInt i)
  | .bool =>
    match parseBool value with
    | .error e => .error e
    | .ok b => .ok (.vBool b)
  | .iface => .ok (.vIface value)
  | _ => .error .unsupportedType

/-- Zero value of a shape (Go `reflect.Zero` / freshly made elements). -/
def zeroValue : Shape → Value
  | .str => .vStr ""
  | .int => .vInt 0
  | .bool => .vBool false
  | .iface => .vIfaceNil
  | .sstruct fields => .vStruct (fields.attach.map (fun f => zeroValue (sfShape f.1)))
  | .slice _ => .vSliceNil
  | .map _ _ => .vMapNil
decreasing_by
  obtain ⟨⟨a, c, d⟩, hf⟩ := f
  have h := List.sizeOf_lt_of_mem hf
  simp only [sfShape]
  simp at h
  simp
  omega

/-- Go map-key equality, restricted to the scalar values `getValue` can
produce (the only keys this library ever inserts; a non-scalar key shape
fails in `getValue` before any insertion). -/
def keyEq : Value → Value → Bool
  | .vStr a, .vStr b => a == b
  | .vInt a, .vInt b => a == b
  | .vBool a, .vBool b => a == b
  | .vIface a, .vIface b => a == b
  | .vIfaceNil, .vIfaceNil => true
  | _, _ => false

/-- Go `val.MapIndex(k)`: the value stored at key `k`, `none` when absent
(an invalid `reflect.Value` in Go). -/
def mapIndex (entries : List (Value × Value)) (k : Value) : Option Value :=
  (entries.find? (fun e => keyEq e.1 k)).map (·.2)

/-- Go `val.SetMapIndex(k, v)`: replace the entry for `k` or append one. -/
def setMapIndex (entries : List (Value × Value)) (k v : Value) : List (Value × Value) :=
  if entries.any (fun e => keyEq e.1 k) then
    entries.map (fun e => if keyEq e.1 k then (e.1, v) else e)
  else entries ++ [(k, v)]

/-- Go `mergeValues(a, b)`.  The first argument is `none` when the Go value
is invalid (`!a.IsValid()`, the result of `MapIndex` on a missing key). -/
def mergeValues (a? : Option Value) (b : Value) : Except Err Value :=
  match a? with
  | none => .ok b
  | some a =>
    if a.vkind = b.vkind then
      match a, b with
      | .vSliceNil, _ => .ok b
      | .vSlice xs, .vSliceNil => .ok (.vSlice xs)
      | .vSlice xs, .vSlice ys =>
        if ys.length > xs.length then .ok (.vSlice (xs ++ ys.drop xs.length))
        else .ok (.vSlice (ys ++ xs.drop ys.length))
      | .vMapNil, _ => .ok b
      | .vMap xs, .vMapNil => .ok (.vMap xs)
      | .vMap xs, .vMap ys =>
        .ok (.vMap (ys.foldl (fun acc e => setMapIndex acc e.1 e.2) xs))
      | _, _ => .ok b
    else .error (.cannotMerge a.vkind b.vkind)

/-- Effective external name of a struct field: the `query` tag, or the Go
field name when the tag is empty (Go: `valueName := styp.Tag.Get(StructTag);
if valueName == "" { valueName = styp.Name }`). -/
def effName (f : StructField) : String :=
  if sfTag f = "" then sfName f else sfTag f

/-- Helper for `getStructField`: scan fields from position `i`; a later
field with the same effective name wins, as in the Go map built by the
loop (`mapping[valueName] = i` overwrites earlier entries). -/
def gsfAux (name : String) : Nat → List StructField → Option (Nat × StructField)
  | _, [] => none
  | i, f :: rest =>
    match gsfAux name (i + 1) rest with
    | some r => some r
    | none => if effName f = name then some (i, f) else none

/-- Go `getStructField(typ, name)`: position (and descriptor) of the field
whose effective name is `name`, `none` when the struct has no such field. -/
def getStructField (fields : List StructField) (name : String) :
    Option (Nat × StructField) :=
  gsfAux name 0 fields

/-- Leaf case of `bind` (empty remaining name): more than one raw value is
an error, exactly one is converted and assigned (`val.Set` replaces the
value wholesale), none at all is the unguarded `value[0]` panic. -/
def bindLeaf (typ : Shape) (base : List Char) (value : List String) :
    Except Err Value :=
  match value with
  | [] => .error .panicked
  | [v] => getValue typ v
  | _ => .error (.multipleValues (String.mk base) value)

/-- Append loop of the `[]` branch: for each raw value in order, convert it
with `getValue` and `reflect.Append` it to the slice. -/
def appendVals (elemTy : Shape) (val : Value) : List String → Except Err Value
  | [] => .ok val
  | v :: rest =>
    match getValue elemTy v with
    | .error e => .error e
    | .ok vv =>
      match val with
      | .vSliceNil => appendVals elemTy (.vSlice [vv]) rest
      | .vSlice xs => appendVals elemTy (.vSlice (xs ++ [vv])) rest
      | _ => .error .reflectMismatch

/-- Slice growth of the index branch: a nil slice becomes
`MakeSlice(index+1)` (all zero values); a shorter slice is padded with zero
values up to `index+1` (both the `MakeSlice`+`Copy` path and the `SetLen`
path expose zero-valued slots, see the file comment); a long enough slice
is unchanged. -/
def growSlice (elemTy : Shape) (val : Value) (index : Nat) :
    Except Err (List Value) :=
  match val with
  | .vSliceNil => .ok (List.replicate (index + 1) (zeroValue elemTy))
  | .vSlice xs =>
    .ok (if xs.length < index + 1 then
      xs ++ List.replicate (index + 1 - xs.length) (zeroValue elemTy)
    else xs)
  | _ => .error .reflectMismatch

/-- Tail of the index branch after the recursive `bind` into the fresh
element has produced `bv`: merge it with the existing element at `index`
and store the merged value there. -/
def finishIndex (elemTy : Shape) (grown : List Value) (index : Nat)
    (bv : Value) : Except Err Value :=
  match mergeValues (some (grown.getD index (zeroValue elemTy))) bv with
  | .error e => .error e
  | .ok mv => .ok (.vSlice (grown.set index mv))

/-- Go `val` as map entries; a nil map was just created empty by
`val.Set(reflect.MakeMap(typ))`. -/
def entriesOf : Value → Except Err (List (Value × Value))
  | .vMapNil => .ok []
  | .vMap es => .ok es
  | _ => .error .reflectMismatch

/-- Tail of the map-key branch after the recursive `bind` into the fresh
element has produced `bv`: convert the bracketed text to the key type,
merge with any existing entry and store. -/
def finishMap (keyTy : Shape) (entries : List (Value × Value))
    (rawKey : String) (bv : Value) : Except Err Value :=
  match getValue keyTy rawKey with
  | .error e => .error e
  | .ok k =>
    match mergeValues (mapIndex entries k) bv with
    | .error e => .error e
    | .ok mv => .ok (.vMap (setMapIndex entries k mv))

lemma length_takeWhile_le' (p : Char → Bool) (l : List Char) :
    (l.takeWhile p).length ≤ l.length := by
  induction l with
  | nil => simp
  | cons c rest ih =>
    by_cases h : p c
    · simp [List.takeWhile_cons, h]; omega
    · simp [List.takeWhile_cons, h]

lemma fieldMatch_length_le (s : List Char) :
    (fieldMatch s).length ≤ s.length := by
  cases s with
  | nil => simp [fieldMatch]
  | cons c rest =>
    simp only [fieldMatch]
    split
    · simpa using length_takeWhile_le' isFieldChar rest
    · simp

lemma fieldMatch_drop_length_lt {s : List Char} (h : fieldMatch s ≠ []) :
    (s.drop (fieldMatch s).length).length < s.length := by
  have h1 := fieldMatch_length_le s
  have h2 : 0 < (fieldMatch s).length := List.length_pos.mpr h
  rw [List.length_drop]
  omega

lemma bracketMatch_length_le (p : Char → Bool) (s : List Char) :
    (bracketMatch p s).length ≤ s.length := by
  cases s with
  | nil => simp [bracketMatch]
  | cons c rest =>
    simp only [bracketMatch]
    split
    next =>
      split
      next => simp
      next d t hdrop =>
        have h3 := length_takeWhile_le' p rest
        have h4 := List.length_drop (rest.takeWhile p).length rest
        rw [hdrop] at h4
        simp only [List.length_cons] at h4
        split
        next =>
          split
          all_goals (simp only [List.length_nil, List.length_cons,
            List.length_append, List.length_singleton]; omega)
        next => simp
    next => simp

lemma indexMatch_drop_length_lt {s is : List Char}
    (h : indexMatch s = is) (hne : is ≠ []) :
    (s.drop is.length).length < s.length := by
  have h1 := bracketMatch_length_le Char.isDigit s
  rw [show bracketMatch Char.isDigit s = indexMatch s from rfl, h] at h1
  have h2 : 0 < is.length := List.length_pos.mpr hne
  rw [List.length_drop]
  omega

lemma mapKeyMatch_drop_length_lt {s ks : List Char}
    (h : mapKeyMatch s = ks) (hne : ks ≠ []) :
    (s.drop ks.length).length < s.length := by
  have h1 := bracketMatch_length_le (fun c => c != ']') s
  rw [show bracketMatch (fun c => c != ']') s = mapKeyMatch s from rfl, h] at h1
  have h2 : 0 < ks.length := List.length_pos.mpr hne
  rw [List.length_drop]
  omega

/-- The `[]` append branch of `bind`: the destination must be a slice, the
`[]` must end the key, then every raw value is converted and appended. -/
def appendBranch (typ : Shape) (val : Value) (base name : List Char)
    (value : List String) : Except Err Value :=
  match typ with
  | .slice elemTy =>
    if name.length ≠ 2 then .error .appendNotAtEnd
    else appendVals elemTy val value
  | _ => .error (.expectedSlice (String.mk base))

mutual

/-- Go `bind(typ, val, base, name, value)`.  The embedding is pure: instead
of mutating `val` in place it returns the updated value.  An empty name is
the leaf case; a leading dot is consumed (extending `base`) and the rest of
the body continues as `bindCore`, which in Go is the same call's
straight-line code after the dot handling (note that Go does not re-check
for an empty name after stripping the dot). -/
def bind (typ : Shape) (val : Value) (base name : List Char)
    (value : List String) : Except Err Value :=
  match name with
  | [] => bindLeaf typ base value
  | c :: rest =>
    if c = '.' then bindCore typ val (base ++ ['.']) rest value
    else bindCore typ val base (c :: rest) value
termination_by 8 * name.length + 4
decreasing_by
  · simp only [List.length_cons]; omega
  · simp only [List.length_cons]; omega

/-- Body of Go `bind` after the empty-name and leading-dot handling: field
segment, `[]` append segment, slice index segment (only tried on a slice
destination), map-key segment, unknown format — in source order.  The
branches with a recursive `bind` call are split into named functions
(`fieldBranch`, `indexBranch`, `mapKeyBranch`). -/
def bindCore (typ : Shape) (val : Value) (base name : List Char)
    (value : List String) : Except Err Value :=
  if hf : fieldMatch name ≠ [] then fieldBranch typ val base name value hf
  else if name.take 2 = ['[', ']'] then appendBranch typ val base name value
  else bindTail typ val base name value
termination_by 8 * name.length + 3
decreasing_by
  · omega
  · omega

/-- Tail of `bindCore`: the slice-index attempt (only on a slice
destination, Go's `if typ.Kind() == reflect.Slice` guard) falling through
to the map-key segment. -/
def bindTail (typ : Shape) (val : Value) (base name : List Char)
    (value : List String) : Except Err Value :=
  match typ with
  | .slice elemTy =>
    match hidx : indexMatch name with
    | [] => mapSegment (.slice elemTy) val base name value
    | i0 :: itail =>
      indexBranch elemTy val base name (i0 :: itail) value hidx (by simp)
  | t => mapSegment t val base name value
termination_by 8 * name.length + 2
decreasing_by
  · omega
  · omega
  · omega

/-- The map-key segment of `bind`: either the map-key regexp matches and
the map-key branch runs, or the key has an unknown format. -/
def mapSegment (typ : Shape) (val : Value) (base name : List Char)
    (value : List String) : Except Err Value :=
  match hkey : mapKeyMatch name with
  | [] => .error (.unknownFormat (String.mk name) (String.mk (base ++ name)))
  | k0 :: ktail =>
    mapKeyBranch typ val base name (k0 :: ktail) value hkey (by simp)
termination_by 8 * name.length + 1
decreasing_by
  · omega

/-- The struct-field branch of `bind`: the destination must be a struct; an
unresolved field name is silently ignored (`return nil` before the field is
even read); otherwise recurse into the field and store the result. -/
def fieldBranch (typ : Shape) (val : Value) (base name : List Char)
    (value : List String) (hf : fieldMatch name ≠ []) : Except Err Value :=
  match typ with
  | .sstruct fields =>
    match getStructField fields (String.mk (fieldMatch name)) with
    | none => .ok val
    | some (i, f) =>
      match val with
      | .vStruct vs =>
        match bind (sfShape f) (vs.getD i (zeroValue (sfShape f)))
            (base ++ fieldMatch name) (name.drop (fieldMatch name).length)
            value with
        | .error e => .error e
        | .ok nv => .ok (.vStruct (vs.set i nv))
      | _ => .error .reflectMismatch
  | _ => .error (.expectedStruct (String.mk base))
termination_by 8 * name.length
decreasing_by
  have := fieldMatch_drop_length_lt hf
  omega

/-- The slice-index branch of `bind` (`iStr` is the matched `[digits]`
prefix of `name`): grow the slice so position `index` exists, recurse into
a fresh zero element, merge the result into the existing element and store
the merged value at `index`. -/
def indexBranch (elemTy : Shape) (val : Value) (base name iStr : List Char)
    (value : List String) (hidx : indexMatch name = iStr) (hne : iStr ≠ []) :
    Except Err Value :=
  match growSlice elemTy val (digitsToNat ((iStr.drop 1).dropLast)) with
  | .error e => .error e
  | .ok grown =>
    match bind elemTy (zeroValue elemTy) (base ++ iStr)
        (name.drop iStr.length) value with
    | .error e => .error e
    | .ok bv => finishIndex elemTy grown (digitsToNat ((iStr.drop 1).dropLast)) bv
termination_by 8 * name.length
decreasing_by
  have := indexMatch_drop_length_lt hidx hne
  omega

/-- The map-key branch of `bind` (`kStr` is the matched `[text]` prefix of
`name`): the destination must be a map (a nil one is created empty),
recurse into a fresh zero element, convert the bracketed text to the key
type, merge with the existing entry and store. -/
def mapKeyBranch (typ : Shape) (val : Value) (base name kStr : List Char)
    (value : List String) (hkey : mapKeyMatch name = kStr) (hne : kStr ≠ []) :
    Except Err Value :=
  match typ with
  | .map keyTy valTy =>
    match entriesOf val with
    | .error e => .error e
    | .ok entries =>
      match bind valTy (zeroValue valTy) (base ++ kStr)
          (name.drop kStr.length) value with
      | .error e => .error e
      | .ok bv =>
        finishMap keyTy entries (String.mk ((kStr.drop 1).dropLast)) bv
  | _ => .error (.expectedMap (String.mk base))
termination_by 8 * name.length
decreasing_by
  have := mapKeyMatch_drop_length_lt hkey hne
  omega

end

/-- The key-processing loop of Go `Unmarshal`: bind every `(name, value)`
pair of the flat mapping in list order, aborting on the first error. -/
def bindAll (typ : Shape) : Value → List (String × List String) →
    Except Err Value
  | v, [] => .ok v
  | v, (name, value) :: rest =>
    match bind typ v [] name.data value with
    | .error e => .error e
    | .ok v' => bindAll typ v' rest

/-- Destination argument of `Unmarshal`: a nil pointer, a non-pointer value,
or a non-nil pointer to a value of some shape. -/
inductive Dest where
  | notPtr
  | nilPtr
  | ptr (typ : Shape) (val : Value)

/-- Go `Unmarshal(values, v)`: reject anything but a non-nil pointer, then
bind every key of the flat mapping against the pointed-to value.  The
embedding returns the final value where Go mutates through the pointer. -/
def unmarshal (values : List (String × List String)) (d : Dest) :
    Except Err Value :=
  match d with
  | .notPtr => .error .mustBePointer
  | .nilPtr => .error .mustBePointer
  | .ptr typ v => bindAll typ v values

/-! Well-typedness of values.  In Go, `Unmarshal` only ever pairs a
`reflect.Value` with its own `reflect.Type`, so the value's runtime
structure always matches the shape; `Conforms` captures that invariant for
the embedding. -/

/-- A value has the runtime structure described by a shape. -/
inductive Conforms : Shape → Value → Prop where
  | str (s : String) : Conforms .str (.vStr s)
  | int (i : Int) : Conforms .int (.vInt i)
  | bool (b : Bool) : Conforms .bool (.vBool b)
  | ifaceNil : Conforms .iface .vIfaceNil
  | iface (s : String) : Conforms .iface (.vIface s)
  | sstruct {fields : List StructField} {vs : List Value}
      (hlen : vs.length = fields.length)
      (hfld : ∀ (i : Nat) (f : StructField) (v : Value),
        fields[i]? = some f → vs[i]? = some v → Conforms (sfShape f) v) :
      Conforms (.sstruct fields) (.vStruct vs)
  | sliceNil {e : Shape} : Conforms (.slice e) .vSliceNil
  | slice {e : Shape} {xs : List Value} (h : ∀ v ∈ xs, Conforms e v) :
      Conforms (.slice e) (.vSlice xs)
  | mapNil {kt vt : Shape} : Conforms (.map kt vt) .vMapNil
  | map {kt vt : Shape} {es : List (Value × Value)}
      (hk : ∀ p ∈ es, Conforms kt p.1)
      (hv : ∀ p ∈ es, Conforms vt p.2) :
      Conforms (.map kt vt) (.vMap es)

lemma conforms_vkind {t : Shape} {v : Value} (h : Conforms t v) :
    v.vkind = shapeKind t := by
  cases h <;> rfl

lemma zeroValue_conforms_aux :
    ∀ (n : Nat) (t : Shape), sizeOf t ≤ n → Conforms t (zeroValue t) := by
  intro n
  induction n with
  | zero =>
    intro t ht
    cases t <;> simp at ht
  | succ n ih =>
    intro t ht
    cases t with
    | str => simp only [zeroValue]; exact .str ""
    | int => simp only [zeroValue]; exact .int 0
    | bool => simp only [zeroValue]; exact .bool false
    | iface => simp only [zeroValue]; exact .ifaceNil
    | slice e => simp only [zeroValue]; exact .sliceNil
    | map kt vt => simp only [zeroValue]; exact .mapNil
    | sstruct fields =>
      have hzv : zeroValue (.sstruct fields)
          = .vStruct (fields.map (fun f => zeroValue (sfShape f))) := by
        simp only [zeroValue]
        rw [List.attach_map_val fields (fun f => zeroValue (sfShape f))]
      rw [hzv]
      refine .sstruct ?_ ?_
      · simp
      · intro i f v hf hv
        rw [List.getElem?_map, hf] at hv
        simp only [Option.map_some'] at hv
        cases hv
        have hmem : f ∈ fields := List.getElem?_mem hf
        have h1 : sizeOf f < sizeOf fields := List.sizeOf_lt_of_mem hmem
        have h2 : sizeOf (sfShape f) < sizeOf f := by
          obtain ⟨a, b, c⟩ := f
          simp [sfShape]
          omega
        have h3 : sizeOf (Shape.sstruct fields) = 1 + sizeOf fields := by
          simp
        exact ih (sfShape f) (by omega)

lemma zeroValue_conforms (t : Shape) : Conforms t (zeroValue t) :=
  zeroValue_conforms_aux (sizeOf t) t le_rfl

lemma getValue_conforms {t : Shape} {s : String} {v : Value}
    (h : getValue t s = .ok v) : Conforms t v := by
  cases t with
  | str =>
    simp only [getValue, Except.ok.injEq] at h
    exact h ▸ .str s
  | int =>
    simp only [getValue] at h
    cases hp : parseInt64 s with
    | error e => rw [hp] at h; cases h
    | ok i =>
      rw [hp] at h
      simp only [Except.ok.injEq] at h
      exact h ▸ .int i
  | bool =>
    simp only [getValue] at h
    cases hp : parseBool s with
    | error e => rw [hp] at h; cases h
    | ok b =>
      rw [hp] at h
      simp only [Except.ok.injEq] at h
      exact h ▸ .bool b
  | iface =>
    simp only [getValue, Except.ok.injEq] at h
    exact h ▸ .iface s
  | sstruct fields => simp [getValue] at h
  | slice e => simp [getValue] at h
  | map kt vt => simp [getValue] at h

lemma conforms_slice_cases {e : Shape} {val : Value}
    (h : Conforms (.slice e) val) :
    val = .vSliceNil ∨ ∃ xs, val = .vSlice xs ∧ ∀ v ∈ xs, Conforms e v := by
  cases h with
  | sliceNil => exact Or.inl rfl
  | slice hxs => exact Or.inr ⟨_, rfl, hxs⟩

lemma conforms_struct_cases {fields : List StructField} {val : Value}
    (h : Conforms (.sstruct fields) val) :
    ∃ vs, val = .vStruct vs ∧ vs.length = fields.length ∧
      ∀ (i : Nat) (f : StructField) (v : Value),
        fields[i]? = some f → vs[i]? = some v → Conforms (sfShape f) v := by
  cases h with
  | sstruct hlen hfld => exact ⟨_, rfl, hlen, hfld⟩

lemma conforms_map_cases {kt vt : Shape} {val : Value}
    (h : Conforms (.map kt vt) val) :
    val = .vMapNil ∨ ∃ es, val = .vMap es ∧
      (∀ p ∈ es, Conforms kt p.1) ∧ (∀ p ∈ es, Conforms vt p.2) := by
  cases h with
  | mapNil => exact Or.inl rfl
  | map hk hv => exact Or.inr ⟨_, rfl, hk, hv⟩

lemma setMapIndex_conforms {kt vt : Shape} {es : List (Value × Value)}
    (hk : ∀ p ∈ es, Conforms kt p.1) (hv : ∀ p ∈ es, Conforms vt p.2)
    {k v : Value} (hkk : Conforms kt k) (hvv : Conforms vt v) :
    (∀ p ∈ setMapIndex es k v, Conforms kt p.1) ∧
      (∀ p ∈ setMapIndex es k v, Conforms vt p.2) := by
  constructor <;> intro p hp <;> (
    unfold setMapIndex at hp
    split at hp
    · obtain ⟨q, hq, hpq⟩ := List.mem_map.mp hp
      by_cases hkq : keyEq q.1 k
      · rw [if_pos hkq] at hpq
        cases hpq
        first
          | exact hk q hq
          | exact hvv
      · rw [if_neg hkq] at hpq
        cases hpq
        first
          | exact hk q hq
          | exact hv q hq
          | exact hk p hq
          | exact hv p hq
    · rcases List.mem_append.mp hp with hin | hone
      · first
          | exact hk p hin
          | exact hv p hin
      · simp only [List.mem_singleton] at hone
        cases hone
        first
          | exact hkk
          | exact hvv)

lemma foldl_setMapIndex_conforms {kt vt : Shape} :
    ∀ (fs es : List (Value × Value)),
    (∀ p ∈ es, Conforms kt p.1) → (∀ p ∈ es, Conforms vt p.2) →
    (∀ p ∈ fs, Conforms kt p.1) → (∀ p ∈ fs, Conforms vt p.2) →
    (∀ p ∈ fs.foldl (fun acc e => setMapIndex acc e.1 e.2) es,
      Conforms kt p.1) ∧
    (∀ p ∈ fs.foldl (fun acc e => setMapIndex acc e.1 e.2) es,
      Conforms vt p.2) := by
  intro fs
  induction fs with
  | nil => intro es h1 h2 _ _; exact ⟨h1, h2⟩
  | cons q rest ih =>
    intro es h1 h2 h3 h4
    simp only [List.foldl_cons]
    have hq1 : Conforms kt q.1 := h3 q (by simp)
    have hq2 : Conforms vt q.2 := h4 q (by simp)
    have hset := setMapIndex_conforms h1 h2 hq1 hq2
    exact ih (setMapIndex es q.1 q.2) hset.1 hset.2
      (fun p hp => h3 p (by simp [hp])) (fun p hp => h4 p (by simp [hp]))

lemma mapIndex_conforms {vt : Shape} {es : List (Value × Value)}
    (hv : ∀ p ∈ es, Conforms vt p.2) {k w : Value}
    (h : mapIndex es k = some w) : Conforms vt w := by
  unfold mapIndex at h
  cases hf : es.find? (fun e => keyEq e.1 k) with
  | none => rw [hf] at h; cases h
  | some q =>
    rw [hf] at h
    simp only [Option.map_some'] at h
    cases h
    exact hv q (List.mem_of_find?_eq_some hf)

/-- Merging two conforming values of the same shape always succeeds and the
result conforms: their kinds agree, so the `cannotMerge` branch of
`mergeValues` is unreachable. -/
lemma mergeValues_conforms {t : Shape} {a b : Value}
    (ha : Conforms t a) (hb : Conforms t b) :
    ∃ c, mergeValues (some a) b = .ok c ∧ Conforms t c := by
  have hk : a.vkind = b.vkind := by
    rw [conforms_vkind ha, conforms_vkind hb]
  cases ha with
  | str s => exact ⟨b, by simp [mergeValues, hk], hb⟩
  | int i => exact ⟨b, by simp [mergeValues, hk], hb⟩
  | bool bb => exact ⟨b, by simp [mergeValues, hk], hb⟩
  | ifaceNil => exact ⟨b, by simp [mergeValues, hk], hb⟩
  | iface s => exact ⟨b, by simp [mergeValues, hk], hb⟩
  | sstruct hlen hfld => exact ⟨b, by simp [mergeValues, hk], hb⟩
  | sliceNil => exact ⟨b, by simp [mergeValues, hk], hb⟩
  | @slice e xs hxs =>
    rcases conforms_slice_cases hb with hnil | ⟨ys, hys, hysc⟩
    · subst hnil
      exact ⟨.vSlice xs, by simp [mergeValues, hk], .slice hxs⟩
    · subst hys
      by_cases hlen : ys.length > xs.length
      · refine ⟨.vSlice (xs ++ ys.drop xs.length),
          by simp [mergeValues, hk, hlen], .slice ?_⟩
        intro v hv
        rcases List.mem_append.mp hv with h1 | h2
        · exact hxs v h1
        · exact hysc v (List.mem_of_mem_drop h2)
      · refine ⟨.vSlice (ys ++ xs.drop ys.length),
          by simp [mergeValues, hk, hlen], .slice ?_⟩
        intro v hv
        rcases List.mem_append.mp hv with h1 | h2
        · exact hysc v h1
        · exact hxs v (List.mem_of_mem_drop h2)
  | mapNil => exact ⟨b, by simp [mergeValues, hk], hb⟩
  | @map kt vt es hk1 hv1 =>
    rcases conforms_map_cases hb with hnil | ⟨fs, hfs, hk2, hv2⟩
    · subst hnil
      exact ⟨.vMap es, by simp [mergeValues, hk], .map hk1 hv1⟩
    · subst hfs
      have hfold := foldl_setMapIndex_conforms fs es hk1 hv1 hk2 hv2
      exact ⟨.vMap (fs.foldl (fun acc e => setMapIndex acc e.1 e.2) es),
        by simp [mergeValues, hk], .map hfold.1 hfold.2⟩

lemma gsfAux_getElem {name : String} :
    ∀ (fields : List StructField) (j i : Nat) (f : StructField),
    gsfAux name j fields = some (i, f) → j ≤ i ∧ fields[i - j]? = some f := by
  intro fields
  induction fields with
  | nil => intro j i f h; simp [gsfAux] at h
  | cons g rest ih =>
    intro j i f h
    simp only [gsfAux] at h
    cases hrec : gsfAux name (j + 1) rest with
    | some r =>
      simp only [hrec] at h
      cases h
      obtain ⟨h1, h2⟩ := ih (j + 1) i f hrec
      refine ⟨by omega, ?_⟩
      have hij : i - j = (i - (j + 1)) + 1 := by omega
      rw [hij, List.getElem?_cons_succ]
      exact h2
    | none =>
      simp only [hrec] at h
      by_cases heff : effName g = name
      · rw [if_pos heff] at h
        cases h
        simp
      · rw [if_neg heff] at h
        cases h

lemma getStructField_getElem {fields : List StructField} {name : String}
    {i : Nat} {f : StructField} (h : getStructField fields name = some (i, f)) :
    fields[i]? = some f := by
  have := gsfAux_getElem fields 0 i f h
  simpa using this.2

lemma getElem?_lt_length {α : Type} {l : List α} {i : Nat} {a : α}
    (h : l[i]? = some a) : i < l.length := by
  by_contra hge
  rw [List.getElem?_eq_none (by omega)] at h
  cases h

lemma getD_conforms {e : Shape} {g : List Value}
    (hg : ∀ v ∈ g, Conforms e v) {d : Value} (hd : Conforms e d) (i : Nat) :
    Conforms e (g.getD i d) := by
  rw [List.getD_eq_getElem?_getD]
  rcases Nat.lt_or_ge i g.length with h | h
  · rw [List.getElem?_eq_getElem h]
    exact hg _ (List.getElem_mem h)
  · rw [List.getElem?_eq_none h]
    exact hd

lemma set_conforms {e : Shape} {g : List Value}
    (hg : ∀ v ∈ g, Conforms e v) {mv : Value} (hmv : Conforms e mv) (i : Nat) :
    ∀ v ∈ g.set i mv, Conforms e v := by
  intro v hv
  rcases List.mem_or_eq_of_mem_set hv with h | h
  · exact hg v h
  · exact h ▸ hmv

/-- Growing a conforming slice always succeeds and every element of the
grown list conforms. -/
lemma growSlice_conforms {e : Shape} {val : Value} (idx : Nat)
    (h : Conforms (.slice e) val) :
    ∃ g, growSlice e val idx = .ok g ∧ ∀ v ∈ g, Conforms e v := by
  rcases conforms_slice_cases h with rfl | ⟨xs, rfl, hxs⟩
  · refine ⟨_, rfl, ?_⟩
    intro v hv
    rw [List.mem_replicate] at hv
    exact hv.2 ▸ zeroValue_conforms e
  · refine ⟨_, rfl, ?_⟩
    intro v hv
    split at hv
    · rcases List.mem_append.mp hv with h1 | h2
      · exact hxs v h1
      · rw [List.mem_replicate] at h2
        exact h2.2 ▸ zeroValue_conforms e
    · exact hxs v hv

/-- Merging a fresh conforming element into the (possibly missing) existing
entry of a conforming map always succeeds with a conforming result. -/
lemma mergeEntry_conforms {vt : Shape} {es : List (Value × Value)}
    (hv : ∀ p ∈ es, Conforms vt p.2) {bv : Value} (hbv : Conforms vt bv)
    (k : Value) :
    ∃ mv, mergeValues (mapIndex es k) bv = .ok mv ∧ Conforms vt mv := by
  cases hmi : mapIndex es k with
  | none => exact ⟨bv, by simp [mergeValues], hbv⟩
  | some w =>
    have hw : Conforms vt w := mapIndex_conforms hv hmi
    obtain ⟨mv, hmv, hc⟩ := mergeValues_conforms hw hbv
    exact ⟨mv, hmv, hc⟩

/-- Relation between the two runs of the same binding step on two
(different) conforming destination values: they fail with the same error,
or both succeed with conforming results.  This is the key invariant behind
order-insensitivity of decode success. -/
def SameOutcome (t : Shape) (r r' : Except Err Value) : Prop :=
  (∃ e, r = .error e ∧ r' = .error e) ∨
    (∃ v v', r = .ok v ∧ r' = .ok v' ∧ Conforms t v ∧ Conforms t v')

lemma sameOutcome_error {t : Shape} {e : Err} :
    SameOutcome t (.error e) (.error e) :=
  Or.inl ⟨e, rfl, rfl⟩

lemma sameOutcome_ok {t : Shape} {v v' : Value} (h : Conforms t v)
    (h' : Conforms t v') : SameOutcome t (.ok v) (.ok v') :=
  Or.inr ⟨v, v', rfl, rfl, h, h'⟩

lemma appendVals_outcome {e : Shape} :
    ∀ (value : List String) (val val' : Value),
    Conforms (.slice e) val → Conforms (.slice e) val' →
    SameOutcome (.slice e) (appendVals e val value) (appendVals e val' value) := by
  intro value
  induction value with
  | nil =>
    intro val val' h h'
    exact sameOutcome_ok h h'
  | cons v rest ih =>
    intro val val' h h'
    cases hg : getValue e v with
    | error err =>
      rcases conforms_slice_cases h with rfl | ⟨xs, rfl, hxs⟩ <;>
        rcases conforms_slice_cases h' with rfl | ⟨xs', rfl, hxs'⟩ <;>
        exact Or.inl ⟨err, by simp [appendVals, hg], by simp [appendVals, hg]⟩
    | ok vv =>
      have hvv : Conforms e vv := getValue_conforms hg
      rcases conforms_slice_cases h with rfl | ⟨xs, rfl, hxs⟩ <;>
        rcases conforms_slice_cases h' with rfl | ⟨xs', rfl, hxs'⟩
      · have h1 : appendVals e .vSliceNil (v :: rest)
            = appendVals e (.vSlice [vv]) rest := by
          simp [appendVals, hg]
        rw [h1]
        exact ih _ _ (.slice (by simpa using hvv)) (.slice (by simpa using hvv))
      · have h1 : appendVals e .vSliceNil (v :: rest)
            = appendVals e (.vSlice [vv]) rest := by
          simp [appendVals, hg]
        have h2 : appendVals e (.vSlice xs') (v :: rest)
            = appendVals e (.vSlice (xs' ++ [vv])) rest := by
          simp [appendVals, hg]
        rw [h1, h2]
        refine ih _ _ (.slice (by simpa using hvv)) (.slice ?_)
        intro w hw
        rcases List.mem_append.mp hw with h3 | h3
        · exact hxs' w h3
        · simpa using (List.mem_singleton.mp h3) ▸ hvv
      · have h1 : appendVals e (.vSlice xs) (v :: rest)
            = appendVals e (.vSlice (xs ++ [vv])) rest := by
          simp [appendVals, hg]
        have h2 : appendVals e .vSliceNil (v :: rest)
            = appendVals e (.vSlice [vv]) rest := by
          simp [appendVals, hg]
        rw [h1, h2]
        refine ih _ _ (.slice ?_) (.slice (by simpa using hvv))
        intro w hw
        rcases List.mem_append.mp hw with h3 | h3
        · exact hxs w h3
        · simpa using (List.mem_singleton.mp h3) ▸ hvv
      · have h1 : appendVals e (.vSlice xs) (v :: rest)
            = appendVals e (.vSlice (xs ++ [vv])) rest := by
          simp [appendVals, hg]
        have h2 : appendVals e (.vSlice xs') (v :: rest)
            = appendVals e (.vSlice (xs' ++ [vv])) rest := by
          simp [appendVals, hg]
        rw [h1, h2]
        refine ih _ _ (.slice ?_) (.slice ?_) <;>
          (intro w hw
           rcases List.mem_append.mp hw with h3 | h3
           · first
              | exact hxs w h3
              | exact hxs' w h3
           · simpa using (List.mem_singleton.mp h3) ▸ hvv)

/-! Equation lemmas for the well-founded definitions, phrased per branch. -/

lemma bind_nil {typ : Shape} {val : Value} {base : List Char}
    {value : List String} :
    bind typ val base [] value = bindLeaf typ base value := by
  simp only [bind]

lemma bind_cons_dot {typ : Shape} {val : Value} {base rest : List Char}
    {value : List String} :
    bind typ val base ('.' :: rest) value
      = bindCore typ val (base ++ ['.']) rest value := by
  simp only [bind, if_true]

lemma bind_cons {typ : Shape} {val : Value} {base rest : List Char} {c : Char}
    (hc : c ≠ '.') {value : List String} :
    bind typ val base (c :: rest) value
      = bindCore typ val base (c :: rest) value := by
  simp only [bind, if_neg hc]

lemma bindCore_field {typ : Shape} {val : Value} {base name : List Char}
    {value : List String} (hf : fieldMatch name ≠ []) :
    bindCore typ val base name value = fieldBranch typ val base name value hf := by
  rw [bindCore.eq_def, dif_pos hf]

lemma bindCore_append {typ : Shape} {val : Value} {base name : List Char}
    {value : List String} (hf : fieldMatch name = [])
    (ha : name.take 2 = ['[', ']']) :
    bindCore typ val base name value = appendBranch typ val base name value := by
  rw [bindCore.eq_def, dif_neg (by simp [hf]), if_pos ha]

lemma bindCore_tail {typ : Shape} {val : Value} {base name : List Char}
    {value : List String} (hf : fieldMatch name = [])
    (ha : ¬ name.take 2 = ['[', ']']) :
    bindCore typ val base name value = bindTail typ val base name value := by
  rw [bindCore.eq_def, dif_neg (by simp [hf]), if_neg ha]

lemma mapSegment_nil {typ : Shape} {val : Value} {base name : List Char}
    {value : List String} (hkey : mapKeyMatch name = []) :
    mapSegment typ val base name value
      = .error (.unknownFormat (String.mk name) (String.mk (base ++ name))) := by
  rw [mapSegment.eq_def]
  split
  · rfl
  · next k0 ktail heq => rw [hkey] at heq; cases heq

lemma mapSegment_cons {typ : Shape} {val : Value} {base name : List Char}
    {value : List String} {k0 : Char} {ktail : List Char}
    (hkey : mapKeyMatch name = k0 :: ktail) :
    mapSegment typ val base name value
      = mapKeyBranch typ val base name (k0 :: ktail) value hkey (by simp) := by
  rw [mapSegment.eq_def]
  split
  · next heq => rw [hkey] at heq; cases heq
  · next k0' ktail' heq =>
    rw [hkey] at heq
    cases heq
    rfl

lemma bindTail_slice_idx {e : Shape} {val : Value} {base name : List Char}
    {value : List String} {i0 : Char} {itail : List Char}
    (hidx : indexMatch name = i0 :: itail) :
    bindTail (.slice e) val base name value
      = indexBranch e val base name (i0 :: itail) value hidx (by simp) := by
  simp only [bindTail]
  split
  · next heq => rw [hidx] at heq; cases heq
  · next i0' itail' heq =>
    rw [hidx] at heq
    cases heq
    rfl

lemma bindTail_slice_noidx {e : Shape} {val : Value} {base name : List Char}
    {value : List String} (hidx : indexMatch name = []) :
    bindTail (.slice e) val base name value
      = mapSegment (.slice e) val base name value := by
  simp only [bindTail]
  split
  · rfl
  · next i0' itail' heq => rw [hidx] at heq; cases heq

lemma conforms_map_entries {kt vt : Shape} {val : Value}
    (h : Conforms (.map kt vt) val) :
    ∃ es, entriesOf val = .ok es ∧ (∀ p ∈ es, Conforms kt p.1) ∧
      (∀ p ∈ es, Conforms vt p.2) := by
  rcases conforms_map_cases h with rfl | ⟨es, rfl, hk, hv⟩
  · exact ⟨[], rfl, by simp, by simp⟩
  · exact ⟨es, rfl, hk, hv⟩

/-- Core invariant: running one binding step on two conforming destination
values (same shape, same key, same raw values) either fails with the same
error on both, or succeeds on both with conforming results.  In particular
whether a key binds successfully does not depend on the destination value,
only on the shape and the key — the invariant behind order-insensitivity of
decode success. -/
lemma bind_outcome :
    ∀ (n : Nat) (name : List Char), name.length ≤ n →
    ∀ (typ : Shape) (val val' : Value) (base : List Char)
      (value : List String),
    Conforms typ val → Conforms typ val' →
    SameOutcome typ (bind typ val base name value)
      (bind typ val' base name value) := by
  intro n
  induction n using Nat.strong_induction_on with
  | _ n IH =>
  have hleaf : ∀ (typ : Shape) (base : List Char) (value : List String),
      SameOutcome typ (bindLeaf typ base value) (bindLeaf typ base value) := by
    intro typ base value
    cases value with
    | nil => exact sameOutcome_error
    | cons v rest =>
      cases rest with
      | nil =>
        cases hg : getValue typ v with
        | error e =>
          simp only [bindLeaf, hg]
          exact sameOutcome_error
        | ok w =>
          simp only [bindLeaf, hg]
          exact sameOutcome_ok (getValue_conforms hg) (getValue_conforms hg)
      | cons v2 rest2 => exact sameOutcome_error
  have hmapseg : ∀ (name : List Char), name.length ≤ n →
      ∀ (typ : Shape) (val val' : Value) (base : List Char)
        (value : List String),
      Conforms typ val → Conforms typ val' →
      SameOutcome typ (mapSegment typ val base name value)
        (mapSegment typ val' base name value) := by
    intro name hn typ val val' base value hc hc'
    cases hkey : mapKeyMatch name with
    | nil =>
      rw [mapSegment_nil hkey, mapSegment_nil hkey]
      exact sameOutcome_error
    | cons k0 ktail =>
      rw [mapSegment_cons hkey, mapSegment_cons hkey]
      cases typ
      all_goals try (simp only [mapKeyBranch]; exact sameOutcome_error)
      rename_i kt vt
      · simp only [mapKeyBranch]
        obtain ⟨es, hes, hk1, hv1⟩ := conforms_map_entries hc
        obtain ⟨es', hes', hk1', hv1'⟩ := conforms_map_entries hc'
        simp only [hes, hes']
        have hdrop : (name.drop (k0 :: ktail).length).length < n := by
          have := mapKeyMatch_drop_length_lt hkey (by simp)
          omega
        have hzl : Conforms vt (zeroValue vt) := zeroValue_conforms vt
        have hrec := IH _ hdrop _ le_rfl vt (zeroValue vt) (zeroValue vt)
          (base ++ (k0 :: ktail)) value hzl hzl
        rcases hrec with ⟨e1, h1, _⟩ | ⟨bv, bv', h1, h1', hbc, _⟩
        · simp only [h1]
          exact sameOutcome_error
        · simp only [h1]
          simp only [finishMap]
          cases hgk : getValue kt (String.mk (((k0 :: ktail).drop 1).dropLast)) with
          | error e =>
            simp only [hgk]
            exact sameOutcome_error
          | ok k =>
            simp only [hgk]
            have hkc := getValue_conforms hgk
            obtain ⟨mv, hmv, hmvc⟩ := mergeEntry_conforms hv1 hbc k
            obtain ⟨mv', hmv', hmvc'⟩ := mergeEntry_conforms hv1' hbc k
            simp only [hmv, hmv']
            have hset := setMapIndex_conforms hk1 hv1 hkc hmvc
            have hset' := setMapIndex_conforms hk1' hv1' hkc hmvc'
            exact sameOutcome_ok (.map hset.1 hset.2) (.map hset'.1 hset'.2)
  have hcore : ∀ (name : List Char), name.length ≤ n →
      ∀ (typ : Shape) (val val' : Value) (base : List Char)
        (value : List String),
      Conforms typ val → Conforms typ val' →
      SameOutcome typ (bindCore typ val base name value)
        (bindCore typ val' base name value) := by
    intro name hn typ val val' base value hc hc'
    by_cases hf : fieldMatch name = []
    case neg =>
      rw [bindCore_field hf, bindCore_field hf]
      cases typ
      all_goals try (simp only [fieldBranch]; exact sameOutcome_error)
      rename_i fields
      · simp only [fieldBranch]
        cases hg : getStructField fields (String.mk (fieldMatch name)) with
        | none =>
          simp only [hg]
          exact sameOutcome_ok hc hc'
        | some r =>
          obtain ⟨i, f⟩ := r
          simp only [hg]
          obtain ⟨vs, rfl, hlen, hfld⟩ := conforms_struct_cases hc
          obtain ⟨vs', rfl, hlen', hfld'⟩ := conforms_struct_cases hc'
          have hif : fields[i]? = some f := getStructField_getElem hg
          have hilt : i < fields.length := getElem?_lt_length hif
          have hiv : vs[i]? = some (vs.getD i (zeroValue (sfShape f))) := by
            rw [List.getD_eq_getElem?_getD,
              List.getElem?_eq_getElem (show i < vs.length by omega)]
            rfl
          have hiv' : vs'[i]? = some (vs'.getD i (zeroValue (sfShape f))) := by
            rw [List.getD_eq_getElem?_getD,
              List.getElem?_eq_getElem (show i < vs'.length by omega)]
            rfl
          have hcf := hfld i f _ hif hiv
          have hcf' := hfld' i f _ hif hiv'
          have hdrop : (name.drop (fieldMatch name).length).length < n := by
            have := fieldMatch_drop_length_lt hf
            omega
          have hrec := IH _ hdrop _ le_rfl (sfShape f)
            (vs.getD i (zeroValue (sfShape f)))
            (vs'.getD i (zeroValue (sfShape f)))
            (base ++ fieldMatch name) value hcf hcf'
          rcases hrec with ⟨e1, h1, h1'⟩ | ⟨nv, nv', h1, h1', hnc, hnc'⟩
          · simp only [h1, h1']
            exact sameOutcome_error
          · simp only [h1, h1']
            refine sameOutcome_ok (.sstruct ?_ ?_) (.sstruct ?_ ?_)
            · simpa using hlen
            · intro j g w hj hw
              by_cases hij : i = j
              · subst hij
                rw [List.getElem?_set_self (show i < vs.length by omega)] at hw
                cases hw
                have hgf : g = f := by
                  rw [hif] at hj
                  cases hj
                  rfl
                rw [hgf]
                exact hnc
              · rw [List.getElem?_set_ne hij] at hw
                exact hfld j g w hj hw
            · simpa using hlen'
            · intro j g w hj hw
              by_cases hij : i = j
              · subst hij
                rw [List.getElem?_set_self (show i < vs'.length by omega)] at hw
                cases hw
                have hgf : g = f := by
                  rw [hif] at hj
                  cases hj
                  rfl
                rw [hgf]
                exact hnc'
              · rw [List.getElem?_set_ne hij] at hw
                exact hfld' j g w hj hw
    case pos =>
      by_cases ha : name.take 2 = ['[', ']']
      · rw [bindCore_append hf ha, bindCore_append hf ha]
        cases typ
        all_goals try (simp only [appendBranch]; exact sameOutcome_error)
        rename_i e
        · simp only [appendBranch]
          by_cases hl : name.length = 2
          · rw [if_neg (by simp [hl]), if_neg (by simp [hl])]
            exact appendVals_outcome value val val' hc hc'
          · rw [if_pos hl, if_pos hl]
            exact sameOutcome_error
      · rw [bindCore_tail hf ha, bindCore_tail hf ha]
        cases typ
        all_goals try (simp only [bindTail]
                       exact hmapseg name hn _ val val' base value hc hc')
        rename_i e
        · cases hidx : indexMatch name with
          | nil =>
            rw [bindTail_slice_noidx hidx, bindTail_slice_noidx hidx]
            exact hmapseg name hn _ val val' base value hc hc'
          | cons i0 itail =>
            rw [bindTail_slice_idx hidx, bindTail_slice_idx hidx]
            simp only [indexBranch]
            obtain ⟨g, hg1, hgc⟩ :=
              growSlice_conforms (digitsToNat (((i0 :: itail).drop 1).dropLast)) hc
            obtain ⟨g', hg1', hgc'⟩ :=
              growSlice_conforms (digitsToNat (((i0 :: itail).drop 1).dropLast)) hc'
            simp only [hg1, hg1']
            have hdrop : (name.drop (i0 :: itail).length).length < n := by
              have := indexMatch_drop_length_lt hidx (by simp)
              omega
            have hz := zeroValue_conforms e
            have hrec := IH _ hdrop _ le_rfl e (zeroValue e) (zeroValue e)
              (base ++ (i0 :: itail)) value hz hz
            rcases hrec with ⟨e1, h1, _⟩ | ⟨bv, bv', h1, h1', hbc, _⟩
            · simp only [h1]
              exact sameOutcome_error
            · simp only [h1]
              simp only [finishIndex]
              have hel := getD_conforms hgc hz
                (digitsToNat (((i0 :: itail).drop 1).dropLast))
              have hel' := getD_conforms hgc' hz
                (digitsToNat (((i0 :: itail).drop 1).dropLast))
              obtain ⟨mv, hmv, hmvc⟩ := mergeValues_conforms hel hbc
              obtain ⟨mv', hmv', hmvc'⟩ := mergeValues_conforms hel' hbc
              simp only [hmv, hmv']
              exact sameOutcome_ok (.slice (set_conforms hgc hmvc _))
                (.slice (set_conforms hgc' hmvc' _))
  intro name hn typ val val' base value hc hc'
  cases name with
  | nil =>
    rw [bind_nil, bind_nil]
    exact hleaf typ base value
  | cons c rest =>
    by_cases hcdot : c = '.'
    · subst hcdot
      rw [bind_cons_dot, bind_cons_dot]
      have hr : rest.length ≤ n := by
        simp only [List.length_cons] at hn
        omega
      exact hcore rest hr typ val val' (base ++ ['.']) value hc hc'
    · rw [bind_cons hcdot, bind_cons hcdot]
      exact hcore (c :: rest) hn typ val val' base value hc hc'

/-- A decode result is a success. -/
def decodeOk (r : Except Err Value) : Prop := ∃ v, r = .ok v

lemma decodeOk_ok {v : Value} : decodeOk (.ok v) := ⟨v, rfl⟩

lemma not_decodeOk_error {e : Err} : ¬ decodeOk (.error e) := by
  rintro ⟨v, hv⟩
  cases hv

/-- Binding preserves well-typedness of the destination value. -/
lemma bind_ok_conforms {typ : Shape} {val : Value} {base name : List Char}
    {value : List String} {r : Value} (hc : Conforms typ val)
    (h : bind typ val base name value = .ok r) : Conforms typ r := by
  rcases bind_outcome name.length name le_rfl typ val val base value hc hc with
    ⟨e, h1, _⟩ | ⟨v1, v2, h1, h2, hcv, _⟩
  · rw [h] at h1
    cases h1
  · rw [h] at h1
    cases h1
    exact hcv

/-- Whether one key binds successfully does not depend on the (conforming)
destination value: success against `val` is success against the zero value
of the shape. -/
lemma bind_ok_indep {typ : Shape} {val : Value} {base : List Char}
    {name : List Char} {value : List String} (hc : Conforms typ val) :
    decodeOk (bind typ val base name value)
      ↔ decodeOk (bind typ (zeroValue typ) base name value) := by
  rcases bind_outcome name.length name le_rfl typ val (zeroValue typ) base
      value hc (zeroValue_conforms typ) with
    ⟨e, h1, h2⟩ | ⟨v1, v2, h1, h2, _, _⟩
  · rw [h1, h2]
  · rw [h1, h2]
    exact ⟨fun _ => decodeOk_ok, fun _ => decodeOk_ok⟩

/-- The whole decode loop succeeds exactly when every key binds
successfully against the zero value of the shape — a per-key condition that
does not mention the processing order. -/
lemma bindAll_ok_iff :
    ∀ (l : List (String × List String)) (typ : Shape) (v : Value),
    Conforms typ v →
    (decodeOk (bindAll typ v l) ↔
      ∀ p ∈ l, decodeOk (bind typ (zeroValue typ) [] p.1.data p.2)) := by
  intro l
  induction l with
  | nil =>
    intro typ v hcv
    simp only [bindAll, List.not_mem_nil, false_implies, implies_true, iff_true]
    exact decodeOk_ok
  | cons p rest ih =>
    intro typ v hcv
    rcases bind_outcome p.1.data.length p.1.data le_rfl typ v (zeroValue typ)
        [] p.2 hcv (zeroValue_conforms typ) with
      ⟨e, h1, h2⟩ | ⟨r, r', h1, h2, hrc, _⟩
    · constructor
      · intro hok
        exfalso
        rw [show bindAll typ v (p :: rest)
            = match bind typ v [] p.1.data p.2 with
              | .error e => .error e
              | .ok v' => bindAll typ v' rest from rfl, h1] at hok
        exact not_decodeOk_error hok
      · intro hall
        exfalso
        have := hall p (by simp)
        rw [h2] at this
        exact not_decodeOk_error this
    · have hstep : bindAll typ v (p :: rest) = bindAll typ r rest := by
        rw [show bindAll typ v (p :: rest)
            = match bind typ v [] p.1.data p.2 with
              | .error e => .error e
              | .ok v' => bindAll typ v' rest from rfl, h1]
      rw [hstep]
      constructor
      · intro hok q hq
        rcases List.mem_cons.mp hq with rfl | hq2
        · exact ⟨r', h2⟩
        · exact (ih typ r hrc).mp hok q hq2
      · intro hall
        exact (ih typ r hrc).mpr (fun q hq => hall q (List.mem_cons_of_mem p hq))

/-- Well-typedness of an `Unmarshal` destination: a pointer destination
points at a value of its own shape (automatic in Go, where a
`reflect.Value` always has its `reflect.Type`). -/
def DestConforms : Dest → Prop
  | .ptr typ v => Conforms typ v
  | _ => True

lemma unmarshal_ok_perm {l1 l2 : List (String × List String)} {d : Dest}
    (hperm : l1.Perm l2) (hd : DestConforms d) :
    decodeOk (unmarshal l1 d) ↔ decodeOk (unmarshal l2 d) := by
  cases d with
  | notPtr => exact Iff.rfl
  | nilPtr => exact Iff.rfl
  | ptr typ v =>
    rw [show unmarshal l1 (.ptr typ v) = bindAll typ v l1 from rfl,
      show unmarshal l2 (.ptr typ v) = bindAll typ v l2 from rfl,
      bindAll_ok_iff l1 typ v hd, bindAll_ok_iff l2 typ v hd]
    constructor
    · intro h q hq
      exact h q (hperm.mem_iff.mpr hq)
    · intro h q hq
      exact h q (hperm.mem_iff.mp hq)

/-! Shape facts about the three matchers, used to identify which branch of
`bindCore` a given key takes. -/

lemma takeWhile_append_of_all {q : Char → Bool} :
    ∀ (ds : List Char) (d : Char) (t : List Char),
    (∀ c ∈ ds, q c = true) → q d = false →
    (ds ++ d :: t).takeWhile q = ds := by
  intro ds
  induction ds with
  | nil =>
    intro d t _ hd
    simp [List.takeWhile_cons, hd]
  | cons c rest ih =>
    intro d t hall hd
    have hc : q c = true := hall c (by simp)
    simp only [List.cons_append, List.takeWhile_cons, hc, if_true]
    rw [ih d t (fun x hx => hall x (by simp [hx])) hd]

/-- Dissection of a successful bracket match: the input starts with a
bracket, the matched prefix is the bracket pair around the maximal `p`-run,
that run is nonempty, and the run is followed by a closing bracket. -/
lemma bracketMatch_spec {p : Char → Bool} {s m : List Char}
    (h : bracketMatch p s = m) (hne : m ≠ []) :
    ∃ rest t, s = '[' :: rest ∧
      m = '[' :: (rest.takeWhile p ++ [']']) ∧
      rest.takeWhile p ≠ [] ∧
      rest.drop (rest.takeWhile p).length = ']' :: t := by
  cases s with
  | nil => cases h; cases hne rfl
  | cons c rest =>
    simp only [bracketMatch] at h
    by_cases hc : c = '['
    · subst hc
      rw [if_pos rfl] at h
      cases hdrop : rest.drop (rest.takeWhile p).length with
      | nil => simp only [hdrop] at h; cases h; cases hne rfl
      | cons d t =>
        simp only [hdrop] at h
        by_cases hd : d = ']'
        · subst hd
          rw [if_pos rfl] at h
          by_cases hemp : (rest.takeWhile p).isEmpty
          · rw [if_pos hemp] at h; cases h; cases hne rfl
          · rw [if_neg hemp] at h
            exact ⟨rest, t, rfl, h.symm,
              fun hnil => hemp (by simp [hnil]), hdrop⟩
        · rw [if_neg hd] at h
          cases h
          cases hne rfl
    · rw [if_neg hc] at h
      cases h
      cases hne rfl

/-- The input seen through a successful bracket match: the maximal `p`-run
followed by the closing bracket and the remainder. -/
lemma bracketMatch_decomp {p : Char → Bool} {rest t : List Char}
    (hdrop : rest.drop (rest.takeWhile p).length = ']' :: t) :
    rest = rest.takeWhile p ++ ']' :: t := by
  conv_lhs => rw [← List.take_append_drop (rest.takeWhile p).length rest]
  rw [hdrop]
  congr 1
  exact (List.prefix_iff_eq_take.mp (List.takeWhile_prefix p)).symm

lemma bracketMatch_congr {p q : Char → Bool} {rest : List Char}
    (h : rest.takeWhile p = rest.takeWhile q) :
    bracketMatch p ('[' :: rest) = bracketMatch q ('[' :: rest) := by
  simp only [bracketMatch, if_pos rfl, h]

/-- A bracketed bare integer also matches the map-key regexp, with the same
matched text: digits can never be the closing bracket. -/
lemma mapKeyMatch_of_indexMatch {s m : List Char}
    (h : indexMatch s = m) (hne : m ≠ []) : mapKeyMatch s = m := by
  obtain ⟨rest, t, rfl, hm, hds, hdrop⟩ := bracketMatch_spec h hne
  have hall : ∀ c ∈ rest.takeWhile Char.isDigit, (c != ']') = true := by
    intro c hc
    have := List.mem_takeWhile_imp hc
    simp only [bne_iff_ne, ne_eq]
    intro hceq
    subst hceq
    simp [Char.isDigit] at this
  have hrest : rest = rest.takeWhile Char.isDigit ++ ']' :: t :=
    bracketMatch_decomp hdrop
  have htw : rest.takeWhile (fun c => c != ']')
      = rest.takeWhile Char.isDigit := by
    conv_lhs => rw [hrest]
    exact takeWhile_append_of_all _ _ _ hall (by simp)
  calc mapKeyMatch ('[' :: rest)
      = bracketMatch Char.isDigit ('[' :: rest) := bracketMatch_congr htw
    _ = m := h

lemma fieldMatch_bracket (rest : List Char) :
    fieldMatch ('[' :: rest) = [] := by
  simp [fieldMatch, isFieldStart]

/-- A key matched by the index regexp does not start with the append
marker: the character after `[` is a digit, not `]`. -/
lemma take2_of_indexMatch {s m : List Char} (h : indexMatch s = m)
    (hne : m ≠ []) : s.take 2 ≠ ['[', ']'] := by
  obtain ⟨rest, t, rfl, hm, hds, hdrop⟩ := bracketMatch_spec h hne
  have hrest : rest = rest.takeWhile Char.isDigit ++ ']' :: t :=
    bracketMatch_decomp hdrop
  cases hds' : rest.takeWhile Char.isDigit with
  | nil => exact absurd hds' hds
  | cons d ds =>
    have hd : d.isDigit := by
      have : d ∈ rest.takeWhile Char.isDigit := by rw [hds']; simp
      exact List.mem_takeWhile_imp this
    rw [hrest, hds']
    simp only [List.cons_append, List.take_succ_cons, List.take_zero]
    intro hcontra
    have hd' : d = ']' := by
      have := congrArg (fun l => l[1]?) hcontra
      simpa using this
    subst hd'
    simp [Char.isDigit] at hd

/-! Which errors the decoder can produce: `mustBePointer` only comes from
the pointer check in `Unmarshal`, and the modelled `value[0]` panic only
from a key with an empty raw-value list. -/

lemma parseInt64_benign {s : String} {e : Err} (h : parseInt64 s = .error e) :
    e ≠ .mustBePointer ∧ e ≠ .panicked := by
  simp only [parseInt64] at h
  split at h
  · cases h
    exact ⟨by simp, by simp⟩
  · split_ifs at h <;> cases h <;> exact ⟨by simp, by simp⟩

lemma parseBool_benign {s : String} {e : Err} (h : parseBool s = .error e) :
    e ≠ .mustBePointer ∧ e ≠ .panicked := by
  simp only [parseBool] at h
  split_ifs at h <;> cases h <;> exact ⟨by simp, by simp⟩

lemma getValue_benign {t : Shape} {s : String} {e : Err}
    (h : getValue t s = .error e) :
    e ≠ .mustBePointer ∧ e ≠ .panicked := by
  cases t with
  | str => cases h
  | int =>
    simp only [getValue] at h
    cases hp : parseInt64 s with
    | error e' =>
      rw [hp] at h
      cases h
      exact parseInt64_benign hp
    | ok i => rw [hp] at h; cases h
  | bool =>
    simp only [getValue] at h
    cases hp : parseBool s with
    | error e' =>
      rw [hp] at h
      cases h
      exact parseBool_benign hp
    | ok b => rw [hp] at h; cases h
  | iface => cases h
  | sstruct fields => cases h; exact ⟨by simp, by simp⟩
  | slice e => cases h; exact ⟨by simp, by simp⟩
  | map kt vt => cases h; exact ⟨by simp, by simp⟩

lemma mergeValues_benign {a : Option Value} {b : Value} {e : Err}
    (h : mergeValues a b = .error e) :
    e ≠ .mustBePointer ∧ e ≠ .panicked := by
  cases a with
  | none => cases h
  | some a =>
    simp only [mergeValues] at h
    split at h
    · split at h <;> first
        | cases h
        | (split at h <;> cases h)
    · cases h
      exact ⟨by simp, by simp⟩

lemma appendVals_benign {et : Shape} :
    ∀ (value : List String) (val : Value) {e : Err},
    appendVals et val value = .error e →
    e ≠ .mustBePointer ∧ e ≠ .panicked := by
  intro value
  induction value with
  | nil => intro val e h; cases h
  | cons v rest ih =>
    intro val e h
    simp only [appendVals] at h
    cases hg : getValue et v with
    | error e' =>
      rw [hg] at h
      cases h
      exact getValue_benign hg
    | ok vv =>
      rw [hg] at h
      cases val with
      | vSliceNil => exact ih _ h
      | vSlice xs => exact ih _ h
      | vStr s => cases h; exact ⟨by simp, by simp⟩
      | vInt i => cases h; exact ⟨by simp, by simp⟩
      | vBool b => cases h; exact ⟨by simp, by simp⟩
      | vIfaceNil => cases h; exact ⟨by simp, by simp⟩
      | vIface s => cases h; exact ⟨by simp, by simp⟩
      | vStruct fs => cases h; exact ⟨by simp, by simp⟩
      | vMapNil => cases h; exact ⟨by simp, by simp⟩
      | vMap es => cases h; exact ⟨by simp, by simp⟩

lemma finishIndex_benign {et : Shape} {grown : List Value} {index : Nat}
    {bv : Value} {e : Err} (h : finishIndex et grown index bv = .error e) :
    e ≠ .mustBePointer ∧ e ≠ .panicked := by
  simp only [finishIndex] at h
  split at h
  next e' hm =>
    cases h
    exact mergeValues_benign hm
  next mv hm => cases h

lemma finishMap_benign {kt : Shape} {entries : List (Value × Value)}
    {rawKey : String} {bv : Value} {e : Err}
    (h : finishMap kt entries rawKey bv = .error e) :
    e ≠ .mustBePointer ∧ e ≠ .panicked := by
  simp only [finishMap] at h
  split at h
  next e' hg =>
    cases h
    exact getValue_benign hg
  next k hg =>
    split at h
    next e' hm =>
      cases h
      exact mergeValues_benign hm
    next mv hm => cases h

/-- Classification of `bind` errors: the pointer-check error never occurs
inside `bind`, and the modelled `value[0]` panic occurs only when the raw
value list is empty. -/
lemma bind_benign :
    ∀ (n : Nat) (name : List Char), name.length ≤ n →
    ∀ (typ : Shape) (val : Value) (base : List Char) (value : List String)
      (e : Err),
    bind typ val base name value = .error e →
    e ≠ .mustBePointer ∧ (value ≠ [] → e ≠ .panicked) := by
  intro n
  induction n using Nat.strong_induction_on with
  | _ n IH =>
  have hcore : ∀ (name : List Char), name.length ≤ n →
      ∀ (typ : Shape) (val : Value) (base : List Char) (value : List String)
        (e : Err),
      bindCore typ val base name value = .error e →
      e ≠ .mustBePointer ∧ (value ≠ [] → e ≠ .panicked) := by
    intro name hn typ val base value e h
    by_cases hf : fieldMatch name = []
    case neg =>
      rw [bindCore_field hf] at h
      have hdrop : (name.drop (fieldMatch name).length).length < n := by
        have := fieldMatch_drop_length_lt hf
        omega
      cases typ with
      | sstruct fields =>
        simp only [fieldBranch] at h
        split at h
        next hg => cases h
        next i f hg =>
          split at h
          next vs =>
            split at h
            next e' hrec =>
              cases h
              exact IH _ hdrop _ le_rfl _ _ _ _ _ hrec
            next nv hrec => cases h
          next hvother =>
            cases h
            exact ⟨by simp, fun _ => by simp⟩
      | str =>
        simp only [fieldBranch] at h
        cases h; exact ⟨by simp, fun _ => by simp⟩
      | int =>
        simp only [fieldBranch] at h
        cases h; exact ⟨by simp, fun _ => by simp⟩
      | bool =>
        simp only [fieldBranch] at h
        cases h; exact ⟨by simp, fun _ => by simp⟩
      | iface =>
        simp only [fieldBranch] at h
        cases h; exact ⟨by simp, fun _ => by simp⟩
      | slice et =>
        simp only [fieldBranch] at h
        cases h; exact ⟨by simp, fun _ => by simp⟩
      | map kt vt =>
        simp only [fieldBranch] at h
        cases h; exact ⟨by simp, fun _ => by simp⟩
    case pos =>
      by_cases ha : name.take 2 = ['[', ']']
      · rw [bindCore_append hf ha] at h
        cases typ with
        | slice et =>
          simp only [appendBranch] at h
          split_ifs at h
          · cases h; exact ⟨by simp, fun _ => by simp⟩
          · have := appendVals_benign value val h
            exact ⟨this.1, fun _ => this.2⟩
        | str => cases h; exact ⟨by simp, fun _ => by simp⟩
        | int => cases h; exact ⟨by simp, fun _ => by simp⟩
        | bool => cases h; exact ⟨by simp, fun _ => by simp⟩
        | iface => cases h; exact ⟨by simp, fun _ => by simp⟩
        | sstruct fields => cases h; exact ⟨by simp, fun _ => by simp⟩
        | map kt vt => cases h; exact ⟨by simp, fun _ => by simp⟩
      · rw [bindCore_tail hf ha] at h
        have hmapseg : ∀ (typ : Shape),
            mapSegment typ val base name value = .error e →
            e ≠ .mustBePointer ∧ (value ≠ [] → e ≠ .panicked) := by
          intro typ h
          cases hkey : mapKeyMatch name with
          | nil =>
            rw [mapSegment_nil hkey] at h
            cases h
            exact ⟨by simp, fun _ => by simp⟩
          | cons k0 ktail =>
            rw [mapSegment_cons hkey] at h
            have hdrop : (name.drop (k0 :: ktail).length).length < n := by
              have := mapKeyMatch_drop_length_lt hkey (by simp)
              omega
            cases typ with
            | map kt vt =>
              simp only [mapKeyBranch] at h
              split at h
              next e' hent =>
                cases h
                cases val <;> cases hent <;>
                  exact ⟨by simp, fun _ => by simp⟩
              next entries hent =>
                split at h
                next e' hrec =>
                  cases h
                  exact IH _ hdrop _ le_rfl _ _ _ _ _ hrec
                next bv hrec =>
                  have := finishMap_benign h
                  exact ⟨this.1, fun _ => this.2⟩
            | str =>
              simp only [mapKeyBranch] at h
              cases h; exact ⟨by simp, fun _ => by simp⟩
            | int =>
              simp only [mapKeyBranch] at h
              cases h; exact ⟨by simp, fun _ => by simp⟩
            | bool =>
              simp only [mapKeyBranch] at h
              cases h; exact ⟨by simp, fun _ => by simp⟩
            | iface =>
              simp only [mapKeyBranch] at h
              cases h; exact ⟨by simp, fun _ => by simp⟩
            | sstruct fields =>
              simp only [mapKeyBranch] at h
              cases h; exact ⟨by simp, fun _ => by simp⟩
            | slice et =>
              simp only [mapKeyBranch] at h
              cases h; exact ⟨by simp, fun _ => by simp⟩
        cases typ with
        | slice et =>
          cases hidx : indexMatch name with
          | nil =>
            rw [bindTail_slice_noidx hidx] at h
            exact hmapseg _ h
          | cons i0 itail =>
            rw [bindTail_slice_idx hidx] at h
            simp only [indexBranch] at h
            have hdrop : (name.drop (i0 :: itail).length).length < n := by
              have := indexMatch_drop_length_lt hidx (by simp)
              omega
            split at h
            next e' hgr =>
              cases h
              cases val <;> cases hgr <;>
                exact ⟨by simp, fun _ => by simp⟩
            next grown hgr =>
              split at h
              next e' hrec =>
                cases h
                exact IH _ hdrop _ le_rfl _ _ _ _ _ hrec
              next bv hrec =>
                have := finishIndex_benign h
                exact ⟨this.1, fun _ => this.2⟩
        | str => simp only [bindTail] at h; exact hmapseg _ h
        | int => simp only [bindTail] at h; exact hmapseg _ h
        | bool => simp only [bindTail] at h; exact hmapseg _ h
        | iface => simp only [bindTail] at h; exact hmapseg _ h
        | sstruct fields => simp only [bindTail] at h; exact hmapseg _ h
        | map kt vt => simp only [bindTail] at h; exact hmapseg _ h
  intro name hn typ val base value e h
  cases name with
  | nil =>
    rw [bind_nil] at h
    cases value with
    | nil =>
      cases h
      exact ⟨by simp, fun hne => absurd rfl hne⟩
    | cons v rest =>
      cases rest with
      | nil =>
        simp only [bindLeaf] at h
        have := getValue_benign h
        exact ⟨this.1, fun _ => this.2⟩
      | cons v2 rest2 => cases h; exact ⟨by simp, fun _ => by simp⟩
  | cons c rest =>
    by_cases hcdot : c = '.'
    · subst hcdot
      rw [bind_cons_dot] at h
      have hr : rest.length ≤ n := by
        simp only [List.length_cons] at hn
        omega
      exact hcore rest hr typ val _ value e h
    · rw [bind_cons hcdot] at h
      exact hcore (c :: rest) hn typ val base value e h

lemma bindAll_benign :
    ∀ (l : List (String × List String)) (typ : Shape) (v : Value) (e : Err),
    bindAll typ v l = .error e →
    e ≠ .mustBePointer ∧ ((∀ p ∈ l, p.2 ≠ []) → e ≠ .panicked) := by
  intro l
  induction l with
  | nil => intro typ v e h; cases h
  | cons p rest ih =>
    intro typ v e h
    rw [show bindAll typ v (p :: rest)
        = match bind typ v [] p.1.data p.2 with
          | .error e => .error e
          | .ok v' => bindAll typ v' rest from rfl] at h
    split at h
    next e' hb =>
      cases h
      have := bind_benign p.1.data.length p.1.data le_rfl typ v [] p.2 _ hb
      exact ⟨this.1, fun hall => this.2 (hall p (by simp))⟩
    next v' hb =>
      have := ih typ v' e h
      exact ⟨this.1, fun hall => this.2 (fun q hq => hall q (by simp [hq]))⟩

/-- Order-preserving conversion of a list of raw values by the scalar
converter: the converted values in input order, or the first conversion
error. -/
def convertAll (e : Shape) : List String → Except Err (List Value)
  | [] => .ok []
  | v :: rest =>
    match getValue e v with
    | .error err => .error err
    | .ok vv =>
      match convertAll e rest with
      | .error err => .error err
      | .ok ws => .ok (vv :: ws)

/-- The append loop is exactly: convert every raw value in order, then
append the converted list after the existing elements; the first
conversion failure is the result. -/
lemma appendVals_convertAll {e : Shape} :
    ∀ (value : List String) (xs : List Value),
    appendVals e (.vSlice xs) value
      = (convertAll e value).map (fun ws => .vSlice (xs ++ ws)) := by
  intro value
  induction value with
  | nil =>
    intro xs
    simp [appendVals, convertAll, Except.map]
  | cons v rest ih =>
    intro xs
    simp only [appendVals, convertAll]
    cases hg : getValue e v with
    | error err =>
      simp [hg, Except.map]
    | ok vv =>
      simp only [hg]
      rw [ih (xs ++ [vv])]
      cases hrest : convertAll e rest with
      | error err =>
        simp [hrest, Except.map]
      | ok ws =>
        simp [hrest, Except.map]

/-- Dissection of a successful index write into an initialized sequence:
the result is a sequence of length `max (old length) (index+1)`; away from
the written index, old positions keep their elements and newly created
positions hold the zero value. -/
lemma bind_index_spec {e : Shape} {xs : List Value} {base name : List Char}
    {value : List String} {m : List Char} {r : Value}
    (hidx : indexMatch name = m) (hne : m ≠ [])
    (h : bind (.slice e) (.vSlice xs) base name value = .ok r) :
    ∃ ys, r = .vSlice ys ∧
      ys.length = max xs.length (digitsToNat ((m.drop 1).dropLast) + 1) ∧
      (∀ j, j ≠ digitsToNat ((m.drop 1).dropLast) → j < xs.length →
        ys[j]? = xs[j]?) ∧
      (∀ j, j ≠ digitsToNat ((m.drop 1).dropLast) → xs.length ≤ j →
        j < ys.length → ys[j]? = some (zeroValue e)) := by
  obtain ⟨rest, t, hname, hm, hds, hdrop⟩ := bracketMatch_spec hidx hne
  cases m with
  | nil => cases hne rfl
  | cons i0 itail =>
    subst hname
    rw [bind_cons (by decide), bindCore_tail (fieldMatch_bracket rest)
      (take2_of_indexMatch hidx hne), bindTail_slice_idx hidx] at h
    simp only [indexBranch, growSlice] at h
    split at h
    next e1 hrec => cases h
    next bv hrec =>
      simp only [finishIndex] at h
      split at h
      next e1 hmv => cases h
      next mv hmv =>
        cases h
        set index := digitsToNat (((i0 :: itail).drop 1).dropLast) with hindex
        by_cases hlen : xs.length < index + 1
        · rw [if_pos hlen]
          refine ⟨_, rfl, ?_, ?_, ?_⟩
          · simp
            omega
          · intro j hj hjlt
            rw [List.getElem?_set_ne (Ne.symm hj),
              List.getElem?_append_left (by simpa using hjlt)]
          · intro j hj hjge hjlt
            rw [List.getElem?_set_ne (Ne.symm hj),
              List.getElem?_append_right (by simpa using hjge)]
            rw [List.getElem?_replicate_of_lt]
            simp only [List.length_set, List.length_append,
              List.length_replicate] at hjlt
            omega
        · rw [if_neg hlen]
          refine ⟨_, rfl, ?_, ?_, ?_⟩
          · simp
            omega
          · intro j hj hjlt
            rw [List.getElem?_set_ne (Ne.symm hj)]
          · intro j hj hjge hjlt
            simp only [List.length_set] at hjlt
            omega

/-! Concrete shapes used by the claim theorems: a record with two int
fields aliased `a`/`b`, and single-field records holding a sequence of
records (`p`), a sequence of strings (`s`) and an int-to-int mapping
(`m`). -/

/-- Record with two int fields, aliases `a` and `b`. -/
def exRecAB : Shape := .sstruct [("A", "a", .int), ("B", "b", .int)]

/-- Record with one field `p` holding a sequence of `exRecAB` records. -/
def exShapeP : Shape := .sstruct [("P", "p", .slice exRecAB)]

/-- Record with one field `s` holding a sequence of strings. -/
def exShapeS : Shape := .sstruct [("S", "s", .slice .str)]

/-- Record with one field `m` holding an int-to-int mapping. -/
def exShapeM : Shape := .sstruct [("M", "m", .map .int .int)]

/-- C1 counterexample: binding `p[0].a=1` then `p[0].b=2` does NOT yield a
record with both fields set — the decode succeeds, but the record at index
0 ends with `a` back at its zero value `0`, not at the bound value `1`,
because `mergeValues` replaces a record wholesale with the incoming one. -/
theorem c1_counterexample :
    unmarshal [("p[0].a", ["1"]), ("p[0].b", ["2"])]
        (.ptr exShapeP (zeroValue exShapeP))
      = .ok (.vStruct [.vSlice [.vStruct [.vInt 0, .vInt 2]]])
    ∧ Value.vInt 0 ≠ Value.vInt 1 := by
  constructor
  · simp +decide [unmarshal, bindAll, bind, bindCore, bindTail, mapSegment,
      bindLeaf, fieldBranch, appendBranch, indexBranch, mapKeyBranch,
      getValue, parseInt64, parseBool, zeroValue, exShapeP, exRecAB,
      getStructField, gsfAux, effName, sfTag, sfName, sfShape, fieldMatch,
      indexMatch, mapKeyMatch, bracketMatch, isFieldStart, isFieldChar,
      digitsToNat, entriesOf, finishMap, finishIndex, growSlice, appendVals,
      mergeValues, mapIndex, setMapIndex, keyEq, String.mk, List.takeWhile,
      List.dropLast, Value.vkind]
  · simp

/-- C1 (corrected): binding `p[0].a=1` and `p[0].b=2` (in either order)
yields one record at index 0 holding only the later-processed key's field;
the other field is reset to its zero value, because the merge of two
record values returns the incoming record wholesale (last write wins), as
the third conjunct states in general. -/
theorem c1_last_write_wins :
    (unmarshal [("p[0].a", ["1"]), ("p[0].b", ["2"])]
        (.ptr exShapeP (zeroValue exShapeP))
      = .ok (.vStruct [.vSlice [.vStruct [.vInt 0, .vInt 2]]]))
    ∧ (unmarshal [("p[0].b", ["2"]), ("p[0].a", ["1"])]
        (.ptr exShapeP (zeroValue exShapeP))
      = .ok (.vStruct [.vSlice [.vStruct [.vInt 1, .vInt 0]]]))
    ∧ (∀ (vs vs' : List Value),
        mergeValues (some (.vStruct vs)) (.vStruct vs')
          = .ok (.vStruct vs')) := by
  refine ⟨?_, ?_, ?_⟩
  · simp +decide [unmarshal, bindAll, bind, bindCore, bindTail, mapSegment,
      bindLeaf, fieldBranch, appendBranch, indexBranch, mapKeyBranch,
      getValue, parseInt64, parseBool, zeroValue, exShapeP, exRecAB,
      getStructField, gsfAux, effName, sfTag, sfName, sfShape, fieldMatch,
      indexMatch, mapKeyMatch, bracketMatch, isFieldStart, isFieldChar,
      digitsToNat, entriesOf, finishMap, finishIndex, growSlice, appendVals,
      mergeValues, mapIndex, setMapIndex, keyEq, String.mk, List.takeWhile,
      List.dropLast, Value.vkind]
  · simp +decide [unmarshal, bindAll, bind, bindCore, bindTail, mapSegment,
      bindLeaf, fieldBranch, appendBranch, indexBranch, mapKeyBranch,
      getValue, parseInt64, parseBool, zeroValue, exShapeP, exRecAB,
      getStructField, gsfAux, effName, sfTag, sfName, sfShape, fieldMatch,
      indexMatch, mapKeyMatch, bracketMatch, isFieldStart, isFieldChar,
      digitsToNat, entriesOf, finishMap, finishIndex, growSlice, appendVals,
      mergeValues, mapIndex, setMapIndex, keyEq, String.mk, List.takeWhile,
      List.dropLast, Value.vkind]
  · intro vs vs'
    simp [mergeValues, Value.vkind]

/-- C2 counterexample: merging initialized sequences `["x"]` (existing) and
`["a", "b"]` (incoming) keeps the EXISTING element `"x"` at the overlapping
index 0 — the incoming value `"a"` does not win there, contradicting the
claim that the later key's values win at every overlapping index. -/
theorem c2_counterexample :
    mergeValues (some (.vSlice [.vStr "x"])) (.vSlice [.vStr "a", .vStr "b"])
      = .ok (.vSlice [.vStr "x", .vStr "b"])
    ∧ Value.vStr "x" ≠ Value.vStr "a" := by
  constructor
  · simp [mergeValues, Value.vkind, setMapIndex, keyEq]
  · simp

/-- C2 (corrected): merging two initialized sequences takes the longer as
the base and overwrites its prefix with the SHORTER one's elements, so at
overlapping indices the shorter sequence wins — the incoming one only when
it is not longer than the existing one; trailing elements of the longer
sequence survive. -/
theorem c2_merge_slices :
    ∀ (xs ys : List Value), ∃ zs,
    mergeValues (some (.vSlice xs)) (.vSlice ys) = .ok (.vSlice zs) ∧
    zs.length = max xs.length ys.length ∧
    (∀ j, j < min xs.length ys.length →
      zs[j]? = (if ys.length > xs.length then xs else ys)[j]?) ∧
    (∀ j, min xs.length ys.length ≤ j →
      zs[j]? = (if ys.length > xs.length then ys else xs)[j]?) := by
  intro xs ys
  by_cases hlen : ys.length > xs.length
  · refine ⟨xs ++ ys.drop xs.length, ?_, ?_, ?_, ?_⟩
    · simp [mergeValues, Value.vkind, hlen]
    · simp
      omega
    · intro j hj
      rw [if_pos hlen, List.getElem?_append_left (by omega)]
    · intro j hj
      rw [if_pos hlen]
      have hxj : xs.length ≤ j := by omega
      rw [List.getElem?_append_right hxj, List.getElem?_drop]
      congr 1
      omega
  · refine ⟨ys ++ xs.drop ys.length, ?_, ?_, ?_, ?_⟩
    · simp [mergeValues, Value.vkind, hlen]
    · simp
      omega
    · intro j hj
      rw [if_neg hlen, List.getElem?_append_left (by omega)]
    · intro j hj
      rw [if_neg hlen]
      have hyj : ys.length ≤ j := by omega
      rw [List.getElem?_append_right hyj, List.getElem?_drop]
      congr 1
      omega

/-- C2 witness: the merge characterization at the counterexample's
sequences. -/
theorem c2_witness :
    ∃ zs, mergeValues (some (.vSlice [Value.vStr "x"]))
        (.vSlice [Value.vStr "a", Value.vStr "b"]) = .ok (.vSlice zs) ∧
      zs.length = max [Value.vStr "x"].length
        [Value.vStr "a", Value.vStr "b"].length ∧
      (∀ j, j < min [Value.vStr "x"].length
          [Value.vStr "a", Value.vStr "b"].length →
        zs[j]? = (if [Value.vStr "a", Value.vStr "b"].length
            > [Value.vStr "x"].length then [Value.vStr "x"]
          else [Value.vStr "a", Value.vStr "b"])[j]?) ∧
      (∀ j, min [Value.vStr "x"].length
          [Value.vStr "a", Value.vStr "b"].length ≤ j →
        zs[j]? = (if [Value.vStr "a", Value.vStr "b"].length
            > [Value.vStr "x"].length then [Value.vStr "a", Value.vStr "b"]
          else [Value.vStr "x"])[j]?) :=
  c2_merge_slices [Value.vStr "x"] [Value.vStr "a", Value.vStr "b"]

/-- C5: at a leaf (empty remaining path), a raw value list with more than
one entry fails with the multiple-values error, and a single entry is
converted by the scalar converter and becomes the assigned value, a
conversion failure propagating as the error (the result of `bind` IS the
result of `getValue`). -/
theorem c5_scalar_leaf :
    (∀ (typ : Shape) (val : Value) (base : List Char) (v : String),
      bind typ val base [] [v] = getValue typ v) ∧
    (∀ (typ : Shape) (val : Value) (base : List Char) (v1 v2 : String)
      (rest : List String),
      bind typ val base [] (v1 :: v2 :: rest)
        = .error (.multipleValues (String.mk base) (v1 :: v2 :: rest))) := by
  constructor
  · intro typ val base v
    rw [bind_nil]
    rfl
  · intro typ val base v1 v2 rest
    rw [bind_nil]
    rfl

/-- C8: a field-name segment that resolves to no field of the record
(neither by tag alias nor by field name) makes `bind` succeed immediately
and return the destination value unchanged, whatever it is. -/
theorem c8_unknown_field_ignored :
    ∀ (fields : List StructField) (val : Value) (base name : List Char)
      (value : List String),
    fieldMatch name ≠ [] →
    getStructField fields (String.mk (fieldMatch name)) = none →
    bind (.sstruct fields) val base name value = .ok val := by
  intro fields val base name value hf hg
  cases name with
  | nil => simp [fieldMatch] at hf
  | cons c rest =>
    have hc : isFieldStart c := by
      by_contra hcn
      simp [fieldMatch, hcn] at hf
    have hcdot : c ≠ '.' := by
      intro hceq
      subst hceq
      exact absurd hc (by decide)
    rw [bind_cons hcdot, bindCore_field hf]
    simp only [fieldBranch, hg]

/-- C8 witness: `unknownfield=1` against a record with only the alias `a`
decodes to the untouched destination. -/
theorem c8_witness :
    bind (.sstruct [("A", "a", Shape.int)]) (.vStruct [.vInt 0]) []
      "unknownfield".data ["1"] = .ok (.vStruct [.vInt 0]) :=
  c8_unknown_field_ignored [("A", "a", Shape.int)] (.vStruct [.vInt 0]) []
    "unknownfield".data ["1"] (by decide) rfl

/-- C9: `Unmarshal` rejects a non-pointer or nil-pointer destination with
the pointer error, and for a non-nil pointer destination that error can
never occur — the check is the only source of `mustBePointer`. -/
theorem c9_destination_check :
    (∀ values : List (String × List String),
      unmarshal values .notPtr = .error .mustBePointer) ∧
    (∀ values : List (String × List String),
      unmarshal values .nilPtr = .error .mustBePointer) ∧
    (∀ (values : List (String × List String)) (typ : Shape) (v : Value),
      unmarshal values (.ptr typ v) ≠ .error .mustBePointer) := by
  refine ⟨fun _ => rfl, fun _ => rfl, ?_⟩
  intro values typ v h
  exact (bindAll_benign values typ v _ h).1 rfl

/-- C9 witness at concrete inputs. -/
theorem c9_witness :
    unmarshal [("a", ["1"])] .notPtr = .error .mustBePointer
    ∧ unmarshal [("a", ["1"])] (.ptr .int (.vInt 0))
        ≠ .error .mustBePointer :=
  ⟨c9_destination_check.1 [("a", ["1"])],
    c9_destination_check.2.2 [("a", ["1"])] .int (.vInt 0)⟩

/-- C10: the leaf case reads `value[0]` with no guard, so the decode is
total only under the precondition that every key maps to a non-empty raw
value list; under that precondition the modelled out-of-range panic can
never occur, and a key reaching a leaf with an empty list hits exactly
that panic (not a returned error). -/
theorem c10_empty_value_panic :
    (∀ (values : List (String × List String)) (d : Dest),
      (∀ p ∈ values, p.2 ≠ []) →
      unmarshal values d ≠ .error .panicked) ∧
    bind .int (.vInt 0) [] [] [] = .error .panicked := by
  constructor
  · intro values d hall h
    cases d with
    | notPtr => simp [unmarshal] at h
    | nilPtr => simp [unmarshal] at h
    | ptr typ v => exact (bindAll_benign values typ v _ h).2 hall rfl
  · rw [bind_nil]
    rfl

/-- C10 witness at concrete inputs. -/
theorem c10_witness :
    unmarshal [("a", ["1"])] (.ptr .int (.vInt 0)) ≠ .error .panicked :=
  c10_empty_value_panic.1 [("a", ["1"])] (.ptr .int (.vInt 0))
    (by simp)

/-- C3 counterexample: the two orders of the same two keys `s[]=a` and
`s[0]=b` both decode successfully but produce different values
(`["b"]` vs `["b", "a"]`) — decoding is not insensitive to the processing
order of the keys. -/
theorem c3_counterexample :
    ([("s[]", ["a"]), ("s[0]", ["b"])] :
        List (String × List String)).Perm [("s[0]", ["b"]), ("s[]", ["a"])]
    ∧ unmarshal [("s[]", ["a"]), ("s[0]", ["b"])]
        (.ptr exShapeS (zeroValue exShapeS))
      = .ok (.vStruct [.vSlice [.vStr "b"]])
    ∧ unmarshal [("s[0]", ["b"]), ("s[]", ["a"])]
        (.ptr exShapeS (zeroValue exShapeS))
      = .ok (.vStruct [.vSlice [.vStr "b", .vStr "a"]])
    ∧ Value.vStruct [.vSlice [.vStr "b"]]
        ≠ Value.vStruct [.vSlice [.vStr "b", .vStr "a"]] := by
  refine ⟨List.Perm.swap _ _ _, ?_, ?_, by simp⟩
  · simp +decide [unmarshal, bindAll, bind, bindCore, bindTail, mapSegment,
      bindLeaf, fieldBranch, appendBranch, indexBranch, mapKeyBranch,
      getValue, parseInt64, parseBool, zeroValue, exShapeS,
      getStructField, gsfAux, effName, sfTag, sfName, sfShape, fieldMatch,
      indexMatch, mapKeyMatch, bracketMatch, isFieldStart, isFieldChar,
      digitsToNat, entriesOf, finishMap, finishIndex, growSlice, appendVals,
      mergeValues, mapIndex, setMapIndex, keyEq, String.mk, List.takeWhile,
      List.dropLast, Value.vkind]
  · simp +decide [unmarshal, bindAll, bind, bindCore, bindTail, mapSegment,
      bindLeaf, fieldBranch, appendBranch, indexBranch, mapKeyBranch,
      getValue, parseInt64, parseBool, zeroValue, exShapeS,
      getStructField, gsfAux, effName, sfTag, sfName, sfShape, fieldMatch,
      indexMatch, mapKeyMatch, bracketMatch, isFieldStart, isFieldChar,
      digitsToNat, entriesOf, finishMap, finishIndex, growSlice, appendVals,
      mergeValues, mapIndex, setMapIndex, keyEq, String.mk, List.takeWhile,
      List.dropLast, Value.vkind]

/-- C3 (corrected): re-ordering the keys of the flat input never changes
WHETHER decoding succeeds (for any well-typed destination), though it can
change the decoded value, as the counterexample shows. -/
theorem c3_success_order_insensitive :
    ∀ (l1 l2 : List (String × List String)) (d : Dest),
    l1.Perm l2 → DestConforms d →
    (decodeOk (unmarshal l1 d) ↔ decodeOk (unmarshal l2 d)) :=
  fun _ _ _ hperm hd => unmarshal_ok_perm hperm hd

/-- C3 witness: the success-equivalence at the counterexample's inputs. -/
theorem c3_witness :
    decodeOk (unmarshal [("s[]", ["a"]), ("s[0]", ["b"])]
        (.ptr exShapeS (zeroValue exShapeS)))
      ↔ decodeOk (unmarshal [("s[0]", ["b"]), ("s[]", ["a"])]
        (.ptr exShapeS (zeroValue exShapeS))) :=
  c3_success_order_insensitive _ _ _ (List.Perm.swap _ _ _)
    (zeroValue_conforms exShapeS)

/-- C4 counterexample: the key `m[2]` (a bracketed bare integer) against a
mapping destination decodes successfully as a map entry keyed `2` — it does
not fail with the expected-sequence error the claim requires for
non-sequence targets. -/
theorem c4_counterexample :
    unmarshal [("m[2]", ["3"])] (.ptr exShapeM (zeroValue exShapeM))
      = .ok (.vStruct [.vMap [(.vInt 2, .vInt 3)]])
    ∧ unmarshal [("m[2]", ["3"])] (.ptr exShapeM (zeroValue exShapeM))
        ≠ .error (.expectedSlice "m") := by
  have h : unmarshal [("m[2]", ["3"])] (.ptr exShapeM (zeroValue exShapeM))
      = .ok (.vStruct [.vMap [(.vInt 2, .vInt 3)]]) := by
    simp +decide [unmarshal, bindAll, bind, bindCore, bindTail, mapSegment,
      bindLeaf, fieldBranch, appendBranch, indexBranch, mapKeyBranch,
      getValue, parseInt64, parseBool, zeroValue, exShapeM,
      getStructField, gsfAux, effName, sfTag, sfName, sfShape, fieldMatch,
      indexMatch, mapKeyMatch, bracketMatch, isFieldStart, isFieldChar,
      digitsToNat, entriesOf, finishMap, finishIndex, growSlice, appendVals,
      mergeValues, mapIndex, setMapIndex, keyEq, String.mk, List.takeWhile,
      List.dropLast, Value.vkind]
  refine ⟨h, ?_⟩
  rw [h]
  simp

/-- C4 (corrected): a bracketed bare integer is an Index segment only when
the destination is a sequence; against any non-sequence, non-mapping
destination it is treated as a map key and the decode fails with the
expected-MAP error (never expected-sequence), and against a mapping
destination it succeeds as a map key, as the second conjunct shows. -/
theorem c4_integer_bracket_dispatch :
    (∀ (typ : Shape) (val : Value) (base name : List Char)
       (value : List String) (m : List Char),
      indexMatch name = m → m ≠ [] →
      shapeKind typ ≠ .slice → shapeKind typ ≠ .map →
      bind typ val base name value
        = .error (.expectedMap (String.mk base))) ∧
    unmarshal [("m[2]", ["3"])] (.ptr exShapeM (zeroValue exShapeM))
      = .ok (.vStruct [.vMap [(.vInt 2, .vInt 3)]]) := by
  constructor
  · intro typ val base name value m hidx hne hk1 hk2
    have hmk := mapKeyMatch_of_indexMatch hidx hne
    obtain ⟨rest, t, rfl, hm, hds, hdrop⟩ := bracketMatch_spec hidx hne
    rw [bind_cons (by decide), bindCore_tail (fieldMatch_bracket rest)
      (take2_of_indexMatch hidx hne)]
    cases m with
    | nil => exact absurd rfl hne
    | cons k0 ktail =>
      cases typ with
      | slice e => exact absurd rfl hk1
      | map kt vt => exact absurd rfl hk2
      | str =>
        simp only [bindTail]
        rw [mapSegment_cons hmk]
        simp only [mapKeyBranch]
      | int =>
        simp only [bindTail]
        rw [mapSegment_cons hmk]
        simp only [mapKeyBranch]
      | bool =>
        simp only [bindTail]
        rw [mapSegment_cons hmk]
        simp only [mapKeyBranch]
      | iface =>
        simp only [bindTail]
        rw [mapSegment_cons hmk]
        simp only [mapKeyBranch]
      | sstruct fields =>
        simp only [bindTail]
        rw [mapSegment_cons hmk]
        simp only [mapKeyBranch]
  · simp +decide [unmarshal, bindAll, bind, bindCore, bindTail, mapSegment,
      bindLeaf, fieldBranch, appendBranch, indexBranch, mapKeyBranch,
      getValue, parseInt64, parseBool, zeroValue, exShapeM,
      getStructField, gsfAux, effName, sfTag, sfName, sfShape, fieldMatch,
      indexMatch, mapKeyMatch, bracketMatch, isFieldStart, isFieldChar,
      digitsToNat, entriesOf, finishMap, finishIndex, growSlice, appendVals,
      mergeValues, mapIndex, setMapIndex, keyEq, String.mk, List.takeWhile,
      List.dropLast, Value.vkind]

/-- C4 witness: the general part at the concrete scalar destination
`int`, key `[2]`. -/
theorem c4_witness :
    bind .int (.vInt 0) [] "[2]".data ["3"]
      = .error (.expectedMap (String.mk [])) :=
  c4_integer_bracket_dispatch.1 .int (.vInt 0) [] "[2]".data ["3"]
    "[2]".data (by decide) (by decide) (by decide) (by decide)

/-- C6: an Append segment (`[]`) not at the end of the key fails the
decode; at the end against a sequence it converts every raw value in input
order and appends them all after the existing elements; against a
non-sequence destination it fails with the expected-sequence error. -/
theorem c6_append_segment :
    (∀ (elemTy : Shape) (val : Value) (base name : List Char)
       (value : List String),
      name.take 2 = ['[', ']'] → name.length ≠ 2 →
      bind (.slice elemTy) val base name value = .error .appendNotAtEnd) ∧
    (∀ (e : Shape) (xs : List Value) (base : List Char)
       (value : List String),
      bind (.slice e) (.vSlice xs) base ['[', ']'] value
        = (convertAll e value).map (fun ws => Value.vSlice (xs ++ ws))) ∧
    (∀ (typ : Shape) (val : Value) (base name : List Char)
       (value : List String),
      name.take 2 = ['[', ']'] → shapeKind typ ≠ .slice →
      bind typ val base name value
        = .error (.expectedSlice (String.mk base))) := by
  have hshape : ∀ (name : List Char), name.take 2 = ['[', ']'] →
      ∃ rest2, name = '[' :: ']' :: rest2 := by
    intro name ha
    cases name with
    | nil => simp at ha
    | cons c1 r1 =>
      cases r1 with
      | nil => simp at ha
      | cons c2 r2 =>
        simp only [List.take_succ_cons, List.take_zero] at ha
        obtain ⟨rfl, rfl, -⟩ := List.cons_eq_cons.mp ha |>.imp id
          (fun h => List.cons_eq_cons.mp h |>.imp id (fun _ => trivial))
        exact ⟨r2, rfl⟩
  refine ⟨?_, ?_, ?_⟩
  · intro elemTy val base name value ha hl
    obtain ⟨rest2, rfl⟩ := hshape name ha
    rw [bind_cons (by decide), bindCore_append (fieldMatch_bracket _) ha]
    simp only [appendBranch]
    rw [if_pos hl]
  · intro e xs base value
    rw [bind_cons (by decide),
      bindCore_append (fieldMatch_bracket [']']) (by decide)]
    simp only [appendBranch]
    rw [if_neg (by decide)]
    exact appendVals_convertAll value xs
  · intro typ val base name value ha hk
    obtain ⟨rest2, rfl⟩ := hshape name ha
    rw [bind_cons (by decide), bindCore_append (fieldMatch_bracket _) ha]
    cases typ with
    | slice e => exact absurd rfl hk
    | str => simp only [appendBranch]
    | int => simp only [appendBranch]
    | bool => simp only [appendBranch]
    | iface => simp only [appendBranch]
    | sstruct fields => simp only [appendBranch]
    | map kt vt => simp only [appendBranch]

/-- C6 witness: `s[]x` fails, `s[]` with two values appends both in order,
and `[]` against an int destination fails with expected-sequence. -/
theorem c6_witness :
    bind (.slice .str) .vSliceNil [] "[]x".data ["a"]
        = .error .appendNotAtEnd
    ∧ bind (.slice .str) (.vSlice [.vStr "w"]) [] ['[', ']'] ["a", "b"]
        = (convertAll .str ["a", "b"]).map
            (fun ws => Value.vSlice ([.vStr "w"] ++ ws))
    ∧ bind .int (.vInt 0) [] "[]".data ["a"]
        = .error (.expectedSlice (String.mk [])) :=
  ⟨c6_append_segment.1 .str .vSliceNil [] "[]x".data ["a"] (by decide)
      (by decide),
    c6_append_segment.2.1 .str [.vStr "w"] [] ["a", "b"],
    c6_append_segment.2.2 .int (.vInt 0) [] "[]".data ["a"] (by decide)
      (by decide)⟩

/-- C7: binding an index segment into an initialized sequence yields a
sequence of length `max (old length) (index+1)`: positions other than the
written index keep their previous elements, newly created positions hold
the element shape's zero value; concretely, `s[5]=x` into an empty
sequence yields six elements, five zero values then `x`. -/
theorem c7_index_growth :
    (∀ (e : Shape) (xs : List Value) (base name : List Char)
       (value : List String) (m : List Char) (r : Value),
      indexMatch name = m → m ≠ [] →
      bind (.slice e) (.vSlice xs) base name value = .ok r →
      ∃ ys, r = .vSlice ys ∧
        ys.length = max xs.length (digitsToNat ((m.drop 1).dropLast) + 1) ∧
        (∀ j, j ≠ digitsToNat ((m.drop 1).dropLast) → j < xs.length →
          ys[j]? = xs[j]?) ∧
        (∀ j, j ≠ digitsToNat ((m.drop 1).dropLast) → xs.length ≤ j →
          j < ys.length → ys[j]? = some (zeroValue e))) ∧
    unmarshal [("s[5]", ["x"])] (.ptr exShapeS (zeroValue exShapeS))
      = .ok (.vStruct [.vSlice [.vStr "", .vStr "", .vStr "", .vStr "",
          .vStr "", .vStr "x"]]) := by
  constructor
  · intro e xs base name value m r h1 h2 h3
    exact bind_index_spec h1 h2 h3
  · simp +decide [unmarshal, bindAll, bind, bindCore, bindTail, mapSegment,
      bindLeaf, fieldBranch, appendBranch, indexBranch, mapKeyBranch,
      getValue, parseInt64, parseBool, zeroValue, exShapeS,
      getStructField, gsfAux, effName, sfTag, sfName, sfShape, fieldMatch,
      indexMatch, mapKeyMatch, bracketMatch, isFieldStart, isFieldChar,
      digitsToNat, entriesOf, finishMap, finishIndex, growSlice, appendVals,
      mergeValues, mapIndex, setMapIndex, keyEq, String.mk, List.takeWhile,
      List.dropLast, Value.vkind]

/-- C7 witness: the general part applied to `[5]=x` against an empty
string sequence. -/
theorem c7_witness :
    ∃ ys, Value.vSlice [.vStr "", .vStr "", .vStr "", .vStr "", .vStr "",
        .vStr "x"] = .vSlice ys ∧
      ys.length = max (List.length ([] : List Value)) (5 + 1) ∧
      (∀ j, j ≠ 5 → j < List.length ([] : List Value) →
        ys[j]? = ([] : List Value)[j]?) ∧
      (∀ j, j ≠ 5 → List.length ([] : List Value) ≤ j → j < ys.length →
        ys[j]? = some (zeroValue .str)) :=
  c7_index_growth.1 .str [] [] "[5]".data ["x"] "[5]".data
    (.vSlice [.vStr "", .vStr "", .vStr "", .vStr "", .vStr "", .vStr "x"])
    (by decide) (by decide)
    (by simp +decide [bind, bindCore, bindTail, mapSegment,
      bindLeaf, fieldBranch, appendBranch, indexBranch, mapKeyBranch,
      getValue, parseInt64, parseBool, zeroValue,
      getStructField, gsfAux, effName, sfTag, sfName, sfShape, fieldMatch,
      indexMatch, mapKeyMatch, bracketMatch, isFieldStart, isFieldChar,
      digitsToNat, entriesOf, finishMap, finishIndex, growSlice, appendVals,
      mergeValues, mapIndex, setMapIndex, keyEq, String.mk, List.takeWhile,
      List.dropLast, Value.vkind])

end Qtos